import Mathlib

/-!
# Verification of `stumpy/stumpi.py` (incremental streaming matrix profile)

This file gives a shallow embedding of the `stumpi` class of the repository
(`src/stumpy/stumpi.py`) and settles the frozen claims about it.

Modelling conventions:

* Machine floats are modelled by exact rationals `ℚ`.  A possibly non-finite
  scalar input (`nan`/`inf`) is modelled as `Option ℚ` with `none` standing
  for any non-finite value: the source only ever asks `np.isfinite(t)` about
  an input and then substitutes `0` for it.
* Distance values live in `WithTop ℚ`; `⊤` models both `np.inf` and a `NaN`
  distance.  This is faithful for every comparison the source performs:
  the source only compares distances with strict `<` where the left operand
  being `inf`/`NaN` makes the comparison false, exactly as `⊤ < x` is false
  in `WithTop ℚ`, and `NaN` is never stored into a profile row because a
  `NaN` candidate never wins a `<` comparison.
* The sentinel pair of a window containing a non-finite point is modelled
  literally: mean `μ = ⊤` (`np.inf`) in `WithTop ℚ`, and the standard
  deviation sentinel `NaN` as `none` in `Option ℚ`.
* z-normalized Euclidean distances are irrational in general; since every
  claim settled here depends only on comparisons between distances and on
  the `∞`/sentinel structure, distances are represented throughout by a
  rational order-surrogate (the squared-distance formula with the variance
  product in place of the standard-deviation product, and without the final
  square root).  The same surrogate is used consistently in the modelled
  batch seed, the modelled distance profile and the modelled left-profile
  recomputation, mirroring how the source uses one distance primitive
  everywhere.
-/

namespace Stumpi

/-- The distance domain: rationals extended with `⊤` (models `np.inf`, and a
`NaN` distance, see the file comment). -/
abbrev Dist : Type := WithTop ℚ

/-- Dot product of two equal-length rational vectors (`np.dot`, `np.sum(a*b)`). -/
def dot (xs ys : List ℚ) : ℚ :=
  ((xs.zip ys).map (fun p => p.1 * p.2)).sum

/-- The numpy in-place shift `arr[:-1] = arr[1:]`: every slot moves one to the
left and the last slot keeps its (now stale) previous value. -/
def shiftL {α : Type} (xs : List α) : List α :=
  xs.tail ++ xs.reverse.take 1

/-- `numpy.searchsorted(row, v, side="right")` on a sorted row: the number of
entries that are `≤ v`, i.e. the insertion point *after* all entries equal to
`v`. -/
def searchsortedRight (xs : List Dist) (v : Dist) : ℕ :=
  xs.countP (fun x => decide (x ≤ v))

/-- Modelled from the spec: `core._shift_insert_at_index(arr, idx, v)` — the
ranked-insertion primitive is not under `src/`; per §4.2 step 7 of the spec it
inserts `v` at rank `idx`, shifts lower-ranked entries down and discards the
previous worst entry, keeping the length unchanged. -/
def shiftInsert {α : Type} (xs : List α) (idx : ℕ) (v : α) : List α :=
  (xs.take idx ++ v :: xs.drop idx).take xs.length

/-- The row's current worst (last) entry, `row[-1]`. -/
def lastSlot (xs : List Dist) : Dist :=
  xs.getLastD ⊤

/-- One ranked top-k insertion attempt, exactly as performed at every call
site in `stumpi.py` (lines 255-261, 268-272, 327-331, 337-341): a candidate
distance `d` with neighbor index `g` is inserted into the aligned rows
`(pr, ir)` only when `d` is strictly below the row's current worst entry, at
the `side="right"` binary-search position. -/
def rowUpdate (pr : List Dist) (ir : List ℤ) (d : Dist) (g : ℤ) :
    List Dist × List ℤ :=
  if d < lastSlot pr then
    let idx := searchsortedRight pr d
    (shiftInsert pr idx d, shiftInsert ir idx g)
  else
    (pr, ir)

/-- A loop of ranked insertion attempts over a list of candidates, each
carrying its distance `dOf b` and neighbor index `gOf b` — the shape of the
scan loops at `stumpi.py` lines 268-272 and 337-341 and of the modelled
batch seed. -/
def rowScan {β : Type} (dOf : β → Dist) (gOf : β → ℤ) (xs : List β)
    (pr : List Dist) (ir : List ℤ) : List Dist × List ℤ :=
  xs.foldl (fun pi b => rowUpdate pi.1 pi.2 (dOf b) (gOf b)) (pr, ir)

/-- Modelled from the spec: `core.apply_exclusion_zone(D, idx, excl, np.inf)`
is not under `src/`; per §6 of the spec it masks, in place, every position
within `excl` of `idx` with `+∞`. -/
def applyExclZone (D : List Dist) (idx excl : ℕ) : List Dist :=
  D.mapIdx (fun j d => if idx ≤ j + excl ∧ j ≤ idx + excl then ⊤ else d)

/-- Modelled from the spec: the mean of one length-`m` window, per §6
`rolling_stats` (`core.compute_mean_std` is not under `src/`). -/
def windowMean (S : List ℚ) (m : ℕ) : ℚ :=
  S.sum / m

/-- Modelled from the spec: the spread statistic of one length-`m` window.
`core.compute_mean_std` returns the population standard deviation; as the
file comment explains, the model stores the population *variance* as an
order-surrogate for it. -/
def windowVar (S : List ℚ) (m : ℕ) : ℚ :=
  (S.map (fun x => x * x)).sum / m - (windowMean S m) ^ 2

/-- The statistics of the newest window, with the sentinel pair
(`μ = +∞`, `σ = NaN`, modelled as `(⊤, none)`) when any of its `m` points is
non-finite — `stumpi.py` lines 223-237 and 299-313. -/
def newestStats (S : List ℚ) (Sfin : List Bool) (m : ℕ) : Dist × Option ℚ :=
  if Sfin.any (fun b => !b) then (⊤, none)
  else (some (windowMean S m), some (windowVar S m))

/-- Modelled from the spec: the scalar distance primitive
(`core._calculate_squared_distance` / one entry of
`core.calculate_distance_profile`, neither under `src/`).  Per §6 it converts
a raw dot product plus window statistics into a z-normalized distance; the
model returns the rational order-surrogate described in the file comment, and
`⊤` whenever either window carries the non-finite sentinel statistics (a
`NaN` distance in the source, which never wins any comparison — neither does
`⊤`). -/
def calcSqDist (m : ℕ) (qt : ℚ) (muQ : Dist) (vQ : Option ℚ)
    (muT : Dist) (vT : Option ℚ) : Dist :=
  match muQ, vQ, muT, vT with
  | some mq, some vq, some mt, some vt =>
      if vq = 0 ∨ vt = 0 then ⊤
      else some |2 * (m : ℚ) * (1 - (qt - m * mq * mt) / (m * vq * vt))|
  | _, _, _, _ => ⊤

/-- Modelled from the spec: `core.calculate_distance_profile` (§6, not under
`src/`): the distance of the newest window to every window, entrywise from
the dot products and the statistics arrays. -/
def calcDistProfile (m : ℕ) (QT : List ℚ) (muQ : Dist) (vQ : Option ℚ)
    (M : List Dist) (V : List (Option ℚ)) : List Dist :=
  (List.range QT.length).map (fun j =>
    calcSqDist m (QT.getD j 0) muQ vQ (M.getD j ⊤) (V.getD j none))

/-- Modelled from the spec: `core.sliding_dot_product(Q, T)` (§6, not under
`src/`): the dot product of the fixed window `Q` against every window of
`T`. -/
def slidingDot (Q T : List ℚ) : List ℚ :=
  (List.range (T.length - Q.length + 1)).map
    (fun i => dot ((T.drop i).take Q.length) Q)

/-- The mutable state of a `stumpi` object: the underscored attributes set up
in `stumpi.__init__` and rewritten by every update call.  `V_T` holds the
spread statistic (the model's surrogate for `self._Σ_T`, `none` = `NaN`);
`nApp` is `self._n_appended`, kept at `0` in non-egress mode where the source
never creates the attribute. -/
structure State where
  m : ℕ
  k : ℕ
  exclZone : ℕ
  egress : Bool
  T : List ℚ
  Tfin : List Bool
  M_T : List Dist
  V_T : List (Option ℚ)
  QT : List ℚ
  P : List (List Dist)
  I : List (List ℤ)
  left_P : List Dist
  left_I : List ℤ
  nApp : ℕ

/-- Number of subsequences, `n - m + 1`. -/
def nsub (s : State) : ℕ :=
  s.T.length - s.m + 1

/-- `_update_egress` lines 210-211 and 227-228: shift `T` left and write the
new point (`0` when it is non-finite) into the freed last slot. -/
def egressTnew (s : State) (t : Option ℚ) : List ℚ :=
  (shiftL s.T).set (s.T.length - 1) (t.getD 0)

/-- `_update_egress` lines 216, 224, 226: shift the finiteness mask and
record the new point's finiteness. -/
def egressTfin (s : State) (t : Option ℚ) : List Bool :=
  (shiftL s.Tfin).set (s.Tfin.length - 1) t.isSome

/-- `_update_egress` lines 231-237: statistics of the newest window
(`S = T[l:]`, the last `m` points), sentinel pair when tainted. -/
def egressStats (s : State) (t : Option ℚ) : Dist × Option ℚ :=
  newestStats ((egressTnew s t).drop (s.T.length - s.m))
    ((egressTfin s t).drop (s.Tfin.length - s.m)) s.m

/-- `_update_egress` lines 239-242: shifted mean array with the newest
window's mean in the last slot. -/
def egressM (s : State) (t : Option ℚ) : List Dist :=
  (shiftL s.M_T).set (s.M_T.length - 1) (egressStats s t).1

/-- `_update_egress` lines 240-242: shifted spread array with the newest
window's statistic in the last slot. -/
def egressV (s : State) (t : Option ℚ) : List (Option ℚ) :=
  (shiftL s.V_T).set (s.V_T.length - 1) (egressStats s t).2

/-- `_update_egress` lines 213-215 and 244-245: the new sliding dot product
array.  `QT` was shifted left (line 213), `t_drop = T[l-1]` reads the shifted
series (line 215), and
`QT_new[1:] = QT[:l] - T[:l]*t_drop + T[m:]*t`,
`QT_new[0] = sum(T[:m] * S[:m])` with `S = T[l:]`. -/
def egressQTnew (s : State) (t : Option ℚ) : List ℚ :=
  let l := s.T.length - s.m
  let Tnew := egressTnew s t
  let QTs := shiftL s.QT
  let tDrop := Tnew.getD (l - 1) 0
  dot (Tnew.take s.m) (Tnew.drop l) ::
    (List.range l).map (fun j =>
      QTs.getD j 0 - Tnew.getD j 0 * tDrop + Tnew.getD (j + s.m) 0 * t.getD 0)

/-- `_update_egress` lines 247-253: the distance profile of the newest
window, forced entirely to `+∞` when the newest window is tainted, then
exclusion-zone masked around the last position. -/
def egressD (s : State) (t : Option ℚ) : List Dist :=
  let D0 := calcDistProfile s.m (egressQTnew s t) (egressStats s t).1
    (egressStats s t).2 (egressM s t) (egressV s t)
  let D1 := if ((egressTfin s t).drop (s.Tfin.length - s.m)).any (fun b => !b)
    then D0.map (fun _ => (⊤ : Dist)) else D0
  applyExclZone D1 (D1.length - 1) s.exclZone

/-- `_update_egress` lines 255-261: the ranked insertion pass over the
shifted pre-existing rows — the candidate for row `i` is `D[i]` and the
inserted neighbor index is the global index `D.shape[0] + n_appended - 1`
(`n_appended` was incremented at line 212, hence `nApp + 1` here). -/
def egressRows (s : State) (t : Option ℚ) : List (List Dist × List ℤ) :=
  (List.range s.P.length).map (fun i =>
    rowUpdate ((shiftL s.P).getD i []) ((shiftL s.I).getD i [])
      ((egressD s t).getD i ⊤)
      (((egressD s t).length : ℤ) + ((s.nApp : ℤ) + 1) - 1))

/-- `_update_egress` lines 266-272: the newest subsequence's top-k row,
rebuilt from scratch (all `+∞` / `-1`) by scanning its distance profile,
inserting the global index `i + n_appended` for local position `i`. -/
def egressLast (s : State) (t : Option ℚ) : List Dist × List ℤ :=
  rowScan (fun jd => jd.2) (fun jd => (jd.1 : ℤ) + ((s.nApp : ℤ) + 1))
    (egressD s t).enum
    (List.replicate s.k (⊤ : Dist)) (List.replicate s.k (-1 : ℤ))

/-- `stumpi._update_egress` in full: shift every array, ingest `t`, rebuild
the dot products, distance profile and top-k rows, and commit.  The newest
row replaces the stale shifted last row (lines 266-267); its left profile is
its own top-1 (lines 277-278). -/
def updateEgress (s : State) (t : Option ℚ) : State :=
  let l := s.T.length - s.m
  { s with
    T := egressTnew s t
    Tfin := egressTfin s t
    M_T := egressM s t
    V_T := egressV s t
    QT := egressQTnew s t
    P := ((egressRows s t).map Prod.fst).set l (egressLast s t).1
    I := ((egressRows s t).map Prod.snd).set l (egressLast s t).2
    left_P := (shiftL s.left_P).set l ((egressLast s t).1.getD 0 ⊤)
    left_I := (shiftL s.left_I).set l ((egressLast s t).2.getD 0 (-1))
    nApp := s.nApp + 1 }

/-- `stumpi._update` lines 294, 299-305: the grown series (`np.append`), with
`0` stored for a non-finite point. -/
def growTnew (s : State) (t : Option ℚ) : List ℚ :=
  s.T ++ [t.getD 0]

/-- `stumpi._update` lines 300-302: the grown finiteness mask. -/
def growTfin (s : State) (t : Option ℚ) : List Bool :=
  s.Tfin ++ [t.isSome]

/-- `stumpi._update` lines 296, 307-313: statistics of the newest window
`S = T_new[l:]`, sentinel pair when tainted. -/
def growStats (s : State) (t : Option ℚ) : Dist × Option ℚ :=
  newestStats ((growTnew s t).drop (s.T.length - s.m + 1))
    ((growTfin s t).drop ((growTfin s t).length - s.m)) s.m

/-- `stumpi._update` lines 295-297 and 318-319: the new sliding dot product
array, one entry longer:
`QT_new[1:] = QT[:l] - T_new[:l]*t_drop + T_new[m:]*t`,
`QT_new[0] = sum(T_new[:m] * S[:m])`, with `t_drop = T_new[l-1]`. -/
def growQTnew (s : State) (t : Option ℚ) : List ℚ :=
  let l := s.T.length - s.m + 1
  let Tnew := growTnew s t
  let tDrop := Tnew.getD (l - 1) 0
  dot (Tnew.take s.m) (Tnew.drop l) ::
    (List.range l).map (fun j =>
      s.QT.getD j 0 - Tnew.getD j 0 * tDrop + Tnew.getD (j + s.m) 0 * t.getD 0)

/-- `stumpi._update` lines 315-316 and 321-325: the distance profile of the
newest window against the grown statistics arrays, forced to `+∞` when the
newest window is tainted, then exclusion-zone masked around the last
position. -/
def growD (s : State) (t : Option ℚ) : List Dist :=
  let M1 := s.M_T ++ [(growStats s t).1]
  let V1 := s.V_T ++ [(growStats s t).2]
  let D0 := calcDistProfile s.m (growQTnew s t) (growStats s t).1
    (growStats s t).2 M1 V1
  let D1 := if ((growTfin s t).drop ((growTfin s t).length - s.m)).any (fun b => !b)
    then D0.map (fun _ => (⊤ : Dist)) else D0
  applyExclZone D1 (D1.length - 1) s.exclZone

/-- `stumpi._update` lines 327-331: the ranked insertion pass over the
pre-existing rows, restricted to `D[:l]`, inserting the pre-growth length
`l` as the neighbor index. -/
def growRows (s : State) (t : Option ℚ) : List (List Dist × List ℤ) :=
  (List.range (s.T.length - s.m + 1)).map (fun i =>
    rowUpdate (s.P.getD i []) (s.I.getD i []) ((growD s t).getD i ⊤)
      ((s.T.length - s.m + 1 : ℕ) : ℤ))

/-- `stumpi._update` lines 335-341: the new subsequence's top-k row, built
from scratch (all `+∞` / `-1`) by scanning its distance profile, inserting
the local index `i`. -/
def growLast (s : State) (t : Option ℚ) : List Dist × List ℤ :=
  rowScan (fun jd => jd.2) (fun jd => (jd.1 : ℤ)) (growD s t).enum
    (List.replicate s.k (⊤ : Dist)) (List.replicate s.k (-1 : ℤ))

/-- `stumpi._update` in full: grow every array by one element/row; the new
subsequence's left profile is its own top-1 (lines 343-344). -/
def updateGrow (s : State) (t : Option ℚ) : State :=
  { s with
    T := growTnew s t
    Tfin := growTfin s t
    M_T := s.M_T ++ [(growStats s t).1]
    V_T := s.V_T ++ [(growStats s t).2]
    QT := growQTnew s t
    P := (growRows s t).map Prod.fst ++ [(growLast s t).1]
    I := (growRows s t).map Prod.snd ++ [(growLast s t).2]
    left_P := s.left_P ++ [(growLast s t).1.getD 0 ⊤]
    left_I := s.left_I ++ [(growLast s t).2.getD 0 (-1)] }

/-- `stumpi.update(t)`: dispatch on the egress flag (lines 193-196). -/
def update (s : State) (t : Option ℚ) : State :=
  if s.egress then updateEgress s t else updateGrow s t

/-- The window of `T` starting at position `i` (`T[i : i + m]`). -/
def window (T : List ℚ) (m i : ℕ) : List ℚ :=
  (T.drop i).take m

/-- Modelled from the spec: the distance between windows `i` and `j` of the
seed series, computed from the dot product of the two windows and their
statistics — the quantity `stumpi.__init__` lines 156-166 compute with
`np.dot` and `core._calculate_squared_distance`, and the quantity the batch
seeding algorithm (`stump`, not under `src/`) ranks neighbors by (§6
`seed_profile`). -/
def seedDist (T : List ℚ) (M : List Dist) (V : List (Option ℚ))
    (m i j : ℕ) : Dist :=
  calcSqDist m (dot (window T m i) (window T m j))
    (M.getD i ⊤) (V.getD i none) (M.getD j ⊤) (V.getD j none)

/-- Modelled from the spec: `core.preprocess`/`core.compute_mean_std` (§6,
not under `src/`): the per-window statistics arrays of the seed series, with
the sentinel pair for every window containing a non-finite point. -/
def initStats (T : List ℚ) (Tfin : List Bool) (m : ℕ) :
    List Dist × List (Option ℚ) :=
  let ms := (List.range (T.length - m + 1)).map
    (fun i => newestStats (window T m i) ((Tfin.drop i).take m) m)
  (ms.map Prod.fst, ms.map Prod.snd)

/-- Modelled from the spec: one row of the batch top-k seed (`stump`, §6
`seed_profile`, not under `src/`): the top-k neighbors of window `i` among
all windows outside the exclusion zone (`|i - j| > e`, §3), accumulated with
the same ranked-insertion primitive the update paths use, scanning `j`
ascending. -/
def seedRow (T : List ℚ) (M : List Dist) (V : List (Option ℚ))
    (m k e i nsub : ℕ) : List Dist × List ℤ :=
  rowScan (fun j => seedDist T M V m i j) (fun j => (j : ℤ))
    ((List.range nsub).filter
      (fun j : ℕ => decide (e < ((i : ℤ) - (j : ℤ)).natAbs)))
    (List.replicate k (⊤ : Dist)) (List.replicate k (-1 : ℤ))

/-- Modelled from the spec: the seed's top-1 *left* (causal) neighbor index
of window `i` (§6 `seed_profile`, §3: neighbors at or before `i`, outside
the exclusion zone), `-1` when none has a finite distance. -/
def seedLeft (T : List ℚ) (M : List Dist) (V : List (Option ℚ))
    (m e i nsub : ℕ) : ℤ :=
  (((List.range nsub).filter (fun j => decide (j + e < i))).foldl
    (fun best j =>
      if seedDist T M V m i j < best.1 then (seedDist T M V m i j, (j : ℤ))
      else best)
    ((⊤ : Dist), (-1 : ℤ))).2

/-- The index set of the left-profile recomputation loop of `stumpi.__init__`
line 155, `np.flatnonzero(self._left_I >= 0 & ~mask)`.  By Python operator
precedence `&` binds tighter than `>=`, so the expression parses as
`self._left_I >= (0 & ~mask)`; `0 & ~mask` is the all-zero array, hence the
loop ranges over every `i` with `left_I[i] >= 0`. -/
def initRecomputeIdx (lI : List ℤ) (nsub : ℕ) : List ℕ :=
  (List.range nsub).filter (fun i => decide (0 ≤ lI.getD i (-1)))

/-- The recomputation index set as the spec sentence (and the source's own
comment, lines 153-154) describes it: exactly the `i` with a valid left
neighbor whose left index differs from the top-1 index.  Stated from the
claim's words, for comparison with `initRecomputeIdx`. -/
def claimRecomputeIdx (lI : List ℤ) (I0 : List (List ℤ)) (nsub : ℕ) : List ℕ :=
  (List.range nsub).filter (fun i =>
    decide (0 ≤ lI.getD i (-1) ∧ lI.getD i (-1) ≠ (I0.getD i []).getD 0 (-1)))

/-- The seed series with non-finite points stored as `0` (§3 of the spec,
`core._preprocess`/`core.preprocess`). -/
def initT (Traw : List (Option ℚ)) : List ℚ :=
  Traw.map (fun x => x.getD 0)

/-- The original finiteness mask of the seed series (line 133). -/
def initTfin (Traw : List (Option ℚ)) : List Bool :=
  Traw.map Option.isSome

/-- The exclusion zone width `ceil(m / STUMPY_EXCL_ZONE_DENOM)` of line 132,
with the configured denominator `4` (`config.STUMPY_EXCL_ZONE_DENOM`, not
under `src/`); `⌈m/4⌉ = (m+3)/4` in integer arithmetic. -/
def initE (m : ℕ) : ℕ :=
  (m + 3) / 4

/-- The seed statistics arrays (line 143, `core.preprocess`). -/
def initMV (Traw : List (Option ℚ)) (m : ℕ) : List Dist × List (Option ℚ) :=
  initStats (initT Traw) (initTfin Traw) m

/-- The seed top-k rows produced by the batch algorithm (line 136-138,
modelled from the spec). -/
def initRows (Traw : List (Option ℚ)) (m k : ℕ) :
    List (List Dist × List ℤ) :=
  (List.range ((initT Traw).length - m + 1)).map
    (fun i => seedRow (initT Traw) (initMV Traw m).1 (initMV Traw m).2 m k
      (initE m) i ((initT Traw).length - m + 1))

/-- The seed left index array (line 140, modelled from the spec). -/
def initLI (Traw : List (Option ℚ)) (m : ℕ) : List ℤ :=
  (List.range ((initT Traw).length - m + 1)).map
    (fun i => seedLeft (initT Traw) (initMV Traw m).1 (initMV Traw m).2 m
      (initE m) i ((initT Traw).length - m + 1))

/-- The left profile after the mask assignment of lines 141, 150-151:
`+∞` everywhere, except `P[i, 0]` where the left index equals the top-1
index. -/
def initLP1 (Traw : List (Option ℚ)) (m k : ℕ) : List Dist :=
  (List.range ((initT Traw).length - m + 1)).map
    (fun i =>
      if (initLI Traw m).getD i (-1) =
          (((initRows Traw m k).map Prod.snd).getD i []).getD 0 (-1)
      then (((initRows Traw m k).map Prod.fst).getD i []).getD 0 ⊤
      else (⊤ : Dist))

/-- The left profile after the recomputation loop of lines 153-166: every
index in `initRecomputeIdx` is overwritten with the distance recomputed from
the dot product of the two windows. -/
def initLP2 (Traw : List (Option ℚ)) (m k : ℕ) : List Dist :=
  (initRecomputeIdx (initLI Traw m) ((initT Traw).length - m + 1)).foldl
    (fun acc i => acc.set i (seedDist (initT Traw) (initMV Traw m).1
      (initMV Traw m).2 m i ((initLI Traw m).getD i (-1)).toNat))
    (initLP1 Traw m k)

/-- `stumpi.__init__`: store `T` and its finiteness mask, the exclusion zone
width, the batch seed profile, the backfilled left profile, the statistics
arrays, the sliding dot product of the final window (lines 168-169), and
`n_appended := 0` (line 172). -/
def stumpiInit (Traw : List (Option ℚ)) (m k : ℕ) (eg : Bool) : State :=
  { m := m
    k := k
    exclZone := initE m
    egress := eg
    T := initT Traw
    Tfin := initTfin Traw
    M_T := (initMV Traw m).1
    V_T := (initMV Traw m).2
    QT := slidingDot ((initT Traw).drop ((initT Traw).length - m))
      (initT Traw)
    P := (initRows Traw m k).map Prod.fst
    I := (initRows Traw m k).map Prod.snd
    left_P := initLP2 Traw m k
    left_I := initLI Traw m
    nApp := 0 }

/-- Well-formedness of a state: the length bookkeeping `stumpi` maintains
(every array sized by the series length `n` or the subsequence count
`n - m + 1`, every top-k row of width `k`), plus the configuration
constraints `m ≥ 1`, `k ≥ 1`, `n ≥ m + 1`. -/
def WF (s : State) : Prop :=
  1 ≤ s.m ∧ 1 ≤ s.k ∧ s.m + 1 ≤ s.T.length ∧
  s.Tfin.length = s.T.length ∧
  s.QT.length = nsub s ∧
  s.M_T.length = nsub s ∧
  s.V_T.length = nsub s ∧
  s.P.length = nsub s ∧
  s.I.length = nsub s ∧
  s.left_P.length = nsub s ∧
  s.left_I.length = nsub s ∧
  (∀ r ∈ s.P, r.length = s.k) ∧
  (∀ r ∈ s.I, r.length = s.k)

/-! ### Elementary facts about the array primitives -/

theorem shiftL_length {α : Type} (xs : List α) : (shiftL xs).length = xs.length := by
  cases xs with
  | nil => rfl
  | cons a as =>
    simp only [shiftL, List.length_append, List.length_tail, List.length_take,
      List.length_reverse, List.length_cons]
    omega

theorem mem_shiftL {α : Type} {x : α} {xs : List α} (h : x ∈ shiftL xs) : x ∈ xs := by
  rcases List.mem_append.mp h with h | h
  · exact (List.tail_sublist xs).mem h
  · exact List.mem_reverse.mp (List.mem_of_mem_take h)

theorem shiftL_getD {α : Type} (xs : List α) (d : α) (i : ℕ)
    (h : i + 1 < xs.length) : (shiftL xs).getD i d = xs.getD (i + 1) d := by
  rw [shiftL, List.getD_append _ _ _ _ (by simp [List.length_tail]; omega),
    List.getD_eq_getElem?_getD, List.getD_eq_getElem?_getD, List.getElem?_tail]

theorem shiftInsert_length {α : Type} (xs : List α) (idx : ℕ) (v : α) :
    (shiftInsert xs idx v).length = xs.length := by
  simp only [shiftInsert, List.length_take, List.length_append, List.length_cons,
    List.length_drop]
  omega

theorem mem_shiftInsert {α : Type} {x v : α} {xs : List α} {idx : ℕ}
    (h : x ∈ shiftInsert xs idx v) : x ∈ xs ∨ x = v := by
  rcases List.mem_append.mp (List.mem_of_mem_take h) with h2 | h2
  · exact Or.inl (List.mem_of_mem_take h2)
  · rcases List.mem_cons.mp h2 with h3 | h3
    · exact Or.inr h3
    · exact Or.inl (List.mem_of_mem_drop h3)

theorem shiftInsert_getElem? {α : Type} (xs : List α) (idx : ℕ) (v : α)
    (h : idx ≤ xs.length) (r : ℕ) :
    (shiftInsert xs idx v)[r]? =
      if r < idx then xs[r]?
      else if r = idx then (if r < xs.length then some v else none)
      else if r < xs.length then xs[r - 1]? else none := by
  have hA : (List.take idx xs).length = idx := by
    simp only [List.length_take]; omega
  rw [shiftInsert, List.getElem?_take]
  by_cases hr : r < xs.length
  · simp only [hr, if_true]
    rw [List.getElem?_append, hA]
    by_cases h1 : r < idx
    · simp only [h1, if_true, List.getElem?_take]
    · simp only [h1, if_false]
      by_cases h2 : r = idx
      · subst h2
        simp [hr]
      · have h3 : r - idx = (r - idx - 1) + 1 := by omega
        rw [h3, List.getElem?_cons_succ, List.getElem?_drop]
        simp only [if_neg h1, if_neg h2, hr, if_true]
        congr 1
        omega
  · have h1 : ¬ r < idx := by omega
    have h2 : ¬ r = idx ∨ (r = idx ∧ ¬ r < xs.length) := by
      by_cases h2 : r = idx
      · exact Or.inr ⟨h2, hr⟩
      · exact Or.inl h2
    simp only [hr, if_false, h1]
    rcases h2 with h2 | ⟨h2, _⟩
    · simp [h2]
    · simp [h2, hr]

theorem getD_mem {α : Type} {xs : List α} {i : ℕ} (d : α) (h : i < xs.length) :
    xs.getD i d ∈ xs := by
  rw [List.getD_eq_getElem?_getD, List.getElem?_eq_getElem h]
  exact List.getElem_mem h

theorem getD_map_range {α : Type} (f : ℕ → α) {n i : ℕ} (d : α) (h : i < n) :
    ((List.range n).map f).getD i d = f i := by
  rw [List.getD_eq_getElem?_getD, List.getElem?_map, List.getElem?_range h]
  rfl

/-! ### Facts about one ranked insertion (`rowUpdate`) -/

theorem searchsortedRight_le_length (pr : List Dist) (d : Dist) :
    searchsortedRight pr d ≤ pr.length :=
  List.countP_le_length _

/-- On a sorted row, the `side="right"` insertion point splits the row into
the prefix of entries `≤ d` and the suffix of entries `> d`. -/
theorem sorted_take_drop_countP (pr : List Dist) (d : Dist)
    (h : pr.Sorted (· ≤ ·)) :
    (∀ x ∈ pr.take (searchsortedRight pr d), x ≤ d) ∧
    (∀ x ∈ pr.drop (searchsortedRight pr d), d < x) := by
  induction pr with
  | nil => exact ⟨by intro x hx; simp at hx, by intro x hx; simp at hx⟩
  | cons a rest ih =>
    obtain ⟨ha, hrest⟩ := List.sorted_cons.mp h
    obtain ⟨ih1, ih2⟩ := ih hrest
    by_cases had : a ≤ d
    · have hc : searchsortedRight (a :: rest) d = searchsortedRight rest d + 1 := by
        simp [searchsortedRight, List.countP_cons, had]
      rw [hc, List.take_succ_cons, List.drop_succ_cons]
      refine ⟨?_, ih2⟩
      intro x hx
      rcases List.mem_cons.mp hx with rfl | hx
      · exact had
      · exact ih1 x hx
    · have hc : searchsortedRight (a :: rest) d = 0 := by
        simp only [searchsortedRight, List.countP_cons, decide_eq_true_eq, had,
          if_false, Nat.add_zero]
        rw [List.countP_eq_zero]
        intro x hx
        simp only [decide_eq_true_eq]
        intro hxd
        exact had (le_trans (ha x hx) hxd)
      rw [hc]
      refine ⟨by intro x hx; simp at hx, ?_⟩
      intro x hx
      rw [List.drop_zero] at hx
      rcases List.mem_cons.mp hx with rfl | hx
      · exact not_le.mp had
      · exact lt_of_lt_of_le (not_le.mp had) (ha x hx)

theorem rowUpdate_fst_length (pr : List Dist) (ir : List ℤ) (d : Dist) (g : ℤ) :
    (rowUpdate pr ir d g).1.length = pr.length := by
  unfold rowUpdate
  split
  · exact shiftInsert_length ..
  · rfl

theorem rowUpdate_snd_length (pr : List Dist) (ir : List ℤ) (d : Dist) (g : ℤ) :
    (rowUpdate pr ir d g).2.length = ir.length := by
  unfold rowUpdate
  split
  · exact shiftInsert_length ..
  · rfl

theorem rowUpdate_fst_sorted (pr : List Dist) (ir : List ℤ) (d : Dist) (g : ℤ)
    (h : pr.Sorted (· ≤ ·)) : (rowUpdate pr ir d g).1.Sorted (· ≤ ·) := by
  unfold rowUpdate
  split
  · obtain ⟨h1, h2⟩ := sorted_take_drop_countP pr d h
    refine List.Pairwise.sublist (List.take_sublist _ _) ?_
    rw [List.pairwise_append]
    refine ⟨List.Pairwise.sublist (List.take_sublist _ _) h, ?_, ?_⟩
    · rw [List.pairwise_cons]
      exact ⟨fun b hb => le_of_lt (h2 b hb),
        List.Pairwise.sublist (List.drop_sublist _ _) h⟩
    · intro x hx b hb
      rcases List.mem_cons.mp hb with rfl | hb
      · exact h1 x hx
      · exact le_trans (h1 x hx) (le_of_lt (h2 b hb))
  · exact h

theorem rowUpdate_fst_mem {pr : List Dist} {ir : List ℤ} {d : Dist} {g : ℤ}
    {x : Dist} (hx : x ∈ (rowUpdate pr ir d g).1) :
    x ∈ pr ∨ (x = d ∧ d < lastSlot pr) := by
  unfold rowUpdate at hx
  split at hx
  · rcases mem_shiftInsert hx with h | h
    · exact Or.inl h
    · exact Or.inr ⟨h, by assumption⟩
  · exact Or.inl hx

theorem rowUpdate_snd_mem {pr : List Dist} {ir : List ℤ} {d : Dist} {g : ℤ}
    {x : ℤ} (hx : x ∈ (rowUpdate pr ir d g).2) :
    x ∈ ir ∨ (x = g ∧ d < lastSlot pr) := by
  unfold rowUpdate at hx
  split at hx
  · rcases mem_shiftInsert hx with h | h
    · exact Or.inl h
    · exact Or.inr ⟨h, by assumption⟩
  · exact Or.inl hx

theorem lastSlot_mem {pr : List Dist} (h : pr ≠ []) : lastSlot pr ∈ pr := by
  rw [lastSlot, List.getLastD_eq_getLast?, List.getLast?_eq_getLast pr h]
  exact List.getLast_mem h

theorem sorted_getD0_le {pr : List Dist} (h : pr.Sorted (· ≤ ·)) {x : Dist}
    (hx : x ∈ pr) : pr.getD 0 ⊤ ≤ x := by
  cases pr with
  | nil => simp at hx
  | cons a rest =>
    obtain ⟨ha, _⟩ := List.sorted_cons.mp h
    rcases List.mem_cons.mp hx with rfl | hx
    · exact le_rfl
    · exact ha x hx

/-- An insertion can only lower the row's top-1 value. -/
theorem rowUpdate_row0_mono (pr : List Dist) (ir : List ℤ) (d : Dist) (g : ℤ) :
    (rowUpdate pr ir d g).1.getD 0 ⊤ ≤ pr.getD 0 ⊤ := by
  unfold rowUpdate
  split
  · rw [List.getD_eq_getElem?_getD,
      shiftInsert_getElem? pr _ d (searchsortedRight_le_length pr d) 0]
    by_cases h0 : 0 < searchsortedRight pr d
    · rw [if_pos h0, ← List.getD_eq_getElem?_getD]
    · have hc : searchsortedRight pr d = 0 := by omega
      simp only [if_neg (by omega : ¬ (0 : ℕ) < searchsortedRight pr d), hc,
        if_pos rfl]
      by_cases hlen : 0 < pr.length
      · rw [if_pos hlen]
        cases pr with
        | nil => simp at hlen
        | cons a rest =>
          have : ¬ a ≤ d := by
            intro had
            have : searchsortedRight (a :: rest) d ≠ 0 := by
              simp [searchsortedRight, List.countP_cons, had]
            exact this hc
          simpa using le_of_lt (not_le.mp this)
      · rw [if_neg hlen]
        cases pr with
        | nil => simp
        | cons a rest => simp at hlen
  · exact le_rfl

/-- After an insertion attempt on a nonempty sorted row, the row's top-1
value is at most the candidate's distance. -/
theorem rowUpdate_row0_le_d (pr : List Dist) (ir : List ℤ) (d : Dist) (g : ℤ)
    (hs : pr.Sorted (· ≤ ·)) (hk : 0 < pr.length) :
    (rowUpdate pr ir d g).1.getD 0 ⊤ ≤ d := by
  have hne : pr ≠ [] := List.ne_nil_of_length_pos hk
  unfold rowUpdate
  split
  · rw [List.getD_eq_getElem?_getD,
      shiftInsert_getElem? pr _ d (searchsortedRight_le_length pr d) 0]
    by_cases h0 : 0 < searchsortedRight pr d
    · rw [if_pos h0, ← List.getD_eq_getElem?_getD]
      obtain ⟨x, hx, hxd⟩ := List.countP_pos_iff.mp h0
      exact le_trans (sorted_getD0_le hs hx) (by simpa using hxd)
    · have hc : searchsortedRight pr d = 0 := by omega
      simp [if_neg (by omega : ¬ (0 : ℕ) < searchsortedRight pr d), hc, hk]
  · rename_i hins
    exact le_trans (sorted_getD0_le hs (lastSlot_mem hne)) (not_lt.mp hins)

/-- Alignment of a profile row with its index row: every slot holding `+∞`
holds `-1` in the aligned index slot (the "unused slot" convention of the
data model). -/
def pairOK (pr : List Dist) (ir : List ℤ) : Prop :=
  ∀ r : ℕ, pr.getD r ⊤ = ⊤ → ir.getD r (-1) = -1

/-- No two entries of an index row point at the same neighbor position
(`-1` marks an unused slot and may repeat). -/
def noDupIdx (ir : List ℤ) : Prop :=
  ir.Pairwise (fun a b => a = b → a = -1)

theorem rowUpdate_pairOK (pr : List Dist) (ir : List ℤ) (d : Dist) (g : ℤ)
    (hlen : pr.length = ir.length) (h : pairOK pr ir) :
    pairOK (rowUpdate pr ir d g).1 (rowUpdate pr ir d g).2 := by
  unfold rowUpdate
  split
  · rename_i hins
    intro r
    have hc := searchsortedRight_le_length pr d
    rw [List.getD_eq_getElem?_getD, List.getD_eq_getElem?_getD,
      shiftInsert_getElem? pr _ d hc, shiftInsert_getElem? ir _ g (hlen ▸ hc),
      ← hlen]
    by_cases h1 : r < searchsortedRight pr d
    · rw [if_pos h1, if_pos h1, ← List.getD_eq_getElem?_getD,
        ← List.getD_eq_getElem?_getD]
      exact h r
    · rw [if_neg h1, if_neg h1]
      by_cases h2 : r = searchsortedRight pr d
      · rw [if_pos h2, if_pos h2]
        by_cases h3 : r < pr.length
        · rw [if_pos h3, if_pos h3]
          intro hd
          exact absurd hd.symm (ne_of_lt (lt_of_lt_of_le hins le_top)).symm
        · rw [if_neg h3, if_neg h3]
          intro _
          rfl
      · rw [if_neg h2, if_neg h2]
        by_cases h3 : r < pr.length
        · rw [if_pos h3, if_pos h3, ← List.getD_eq_getElem?_getD,
            ← List.getD_eq_getElem?_getD]
          exact h (r - 1)
        · rw [if_neg h3, if_neg h3]
          intro _
          rfl
  · exact h

theorem shiftInsert_noDup (ir : List ℤ) (idx : ℕ) (g : ℤ) (hnd : noDupIdx ir)
    (hfresh : ∀ x ∈ ir, x < g) : noDupIdx (shiftInsert ir idx g) := by
  refine List.Pairwise.sublist (List.take_sublist _ _) ?_
  have h2 : List.Pairwise (fun a b => a = b → a = -1)
      (ir.take idx ++ ir.drop idx) := by
    rw [List.take_append_drop]
    exact hnd
  rw [List.pairwise_append] at h2
  obtain ⟨hp1, hp2, hcross⟩ := h2
  rw [List.pairwise_append]
  refine ⟨hp1, ?_, ?_⟩
  · rw [List.pairwise_cons]
    refine ⟨?_, hp2⟩
    intro b hb hgb
    exact absurd hgb.symm (ne_of_lt (hfresh b (List.mem_of_mem_drop hb)))
  · intro a ha b hb
    rcases List.mem_cons.mp hb with rfl | hb
    · intro hab
      exact absurd hab (ne_of_lt (hfresh a (List.mem_of_mem_take ha)))
    · exact hcross a ha b hb

theorem rowUpdate_noDup (pr : List Dist) (ir : List ℤ) (d : Dist) (g : ℤ)
    (hnd : noDupIdx ir) (hfresh : ∀ x ∈ ir, x < g) :
    noDupIdx (rowUpdate pr ir d g).2 := by
  unfold rowUpdate
  split
  · exact shiftInsert_noDup ir _ g hnd hfresh
  · exact hnd

/-! ### Facts about the candidate scan (`rowScan`) -/

theorem rowScan_cons {β : Type} (dOf : β → Dist) (gOf : β → ℤ) (b : β)
    (bs : List β) (pr : List Dist) (ir : List ℤ) :
    rowScan dOf gOf (b :: bs) pr ir =
      rowScan dOf gOf bs (rowUpdate pr ir (dOf b) (gOf b)).1
        (rowUpdate pr ir (dOf b) (gOf b)).2 := rfl

theorem rowScan_fst_length {β : Type} (dOf : β → Dist) (gOf : β → ℤ)
    (xs : List β) (pr : List Dist) (ir : List ℤ) :
    (rowScan dOf gOf xs pr ir).1.length = pr.length := by
  induction xs generalizing pr ir with
  | nil => rfl
  | cons b bs ih =>
    rw [rowScan_cons]
    exact (ih _ _).trans (rowUpdate_fst_length ..)

theorem rowScan_snd_length {β : Type} (dOf : β → Dist) (gOf : β → ℤ)
    (xs : List β) (pr : List Dist) (ir : List ℤ) :
    (rowScan dOf gOf xs pr ir).2.length = ir.length := by
  induction xs generalizing pr ir with
  | nil => rfl
  | cons b bs ih =>
    rw [rowScan_cons]
    exact (ih _ _).trans (rowUpdate_snd_length ..)

theorem rowScan_fst_sorted {β : Type} (dOf : β → Dist) (gOf : β → ℤ)
    (xs : List β) (pr : List Dist) (ir : List ℤ) (h : pr.Sorted (· ≤ ·)) :
    (rowScan dOf gOf xs pr ir).1.Sorted (· ≤ ·) := by
  induction xs generalizing pr ir with
  | nil => exact h
  | cons b bs ih =>
    rw [rowScan_cons]
    exact ih _ _ (rowUpdate_fst_sorted _ _ _ _ h)

theorem rowScan_pairOK {β : Type} (dOf : β → Dist) (gOf : β → ℤ)
    (xs : List β) (pr : List Dist) (ir : List ℤ)
    (hlen : pr.length = ir.length) (h : pairOK pr ir) :
    pairOK (rowScan dOf gOf xs pr ir).1 (rowScan dOf gOf xs pr ir).2 := by
  induction xs generalizing pr ir with
  | nil => exact h
  | cons b bs ih =>
    rw [rowScan_cons]
    exact ih _ _ ((rowUpdate_fst_length ..).trans
      (hlen.trans (rowUpdate_snd_length ..).symm))
      (rowUpdate_pairOK _ _ _ _ hlen h)

theorem rowScan_snd_mem {β : Type} {dOf : β → Dist} {gOf : β → ℤ}
    {xs : List β} {pr : List Dist} {ir : List ℤ} {x : ℤ}
    (hx : x ∈ (rowScan dOf gOf xs pr ir).2) :
    x ∈ ir ∨ ∃ b ∈ xs, x = gOf b ∧ dOf b < ⊤ := by
  induction xs generalizing pr ir with
  | nil => exact Or.inl hx
  | cons b bs ih =>
    rw [rowScan_cons] at hx
    rcases ih hx with h | ⟨b', hb', hx', hd'⟩
    · rcases rowUpdate_snd_mem h with h | ⟨rfl, hd⟩
      · exact Or.inl h
      · exact Or.inr ⟨b, List.mem_cons_self .., rfl, lt_of_lt_of_le hd le_top⟩
    · exact Or.inr ⟨b', List.mem_cons_of_mem _ hb', hx', hd'⟩

theorem rowScan_fst_mem {β : Type} {dOf : β → Dist} {gOf : β → ℤ}
    {xs : List β} {pr : List Dist} {ir : List ℤ} {x : Dist}
    (hx : x ∈ (rowScan dOf gOf xs pr ir).1) :
    x ∈ pr ∨ ∃ b ∈ xs, x = dOf b := by
  induction xs generalizing pr ir with
  | nil => exact Or.inl hx
  | cons b bs ih =>
    rw [rowScan_cons] at hx
    rcases ih hx with h | ⟨b', hb', hx'⟩
    · rcases rowUpdate_fst_mem h with h | ⟨rfl, _⟩
      · exact Or.inl h
      · exact Or.inr ⟨b, List.mem_cons_self .., rfl⟩
    · exact Or.inr ⟨b', List.mem_cons_of_mem _ hb', hx'⟩

theorem rowScan_row0_mono {β : Type} (dOf : β → Dist) (gOf : β → ℤ)
    (xs : List β) (pr : List Dist) (ir : List ℤ) :
    (rowScan dOf gOf xs pr ir).1.getD 0 ⊤ ≤ pr.getD 0 ⊤ := by
  induction xs generalizing pr ir with
  | nil => exact le_rfl
  | cons b bs ih =>
    rw [rowScan_cons]
    exact le_trans
      (ih (rowUpdate pr ir (dOf b) (gOf b)).1 (rowUpdate pr ir (dOf b) (gOf b)).2)
      (rowUpdate_row0_mono pr ir (dOf b) (gOf b))

/-- After scanning all candidates, the row's top-1 value is at most every
scanned candidate's distance. -/
theorem rowScan_row0_le_d {β : Type} (dOf : β → Dist) (gOf : β → ℤ)
    (xs : List β) (pr : List Dist) (ir : List ℤ)
    (hs : pr.Sorted (· ≤ ·)) (hk : 0 < pr.length) :
    ∀ b ∈ xs, (rowScan dOf gOf xs pr ir).1.getD 0 ⊤ ≤ dOf b := by
  induction xs generalizing pr ir with
  | nil => intro b hb; simp at hb
  | cons b bs ih =>
    intro b' hb'
    rw [rowScan_cons]
    rcases List.mem_cons.mp hb' with rfl | hb'
    · exact le_trans
        (rowScan_row0_mono dOf gOf bs (rowUpdate pr ir (dOf b') (gOf b')).1
          (rowUpdate pr ir (dOf b') (gOf b')).2)
        (rowUpdate_row0_le_d pr ir (dOf b') (gOf b') hs hk)
    · exact ih _ _ (rowUpdate_fst_sorted _ _ _ _ hs)
        (by rw [rowUpdate_fst_length]; exact hk) b' hb'

/-- The scan preserves no-duplicate index rows provided the candidates'
indices strictly increase along the scan and exceed every index already in
the row. -/
theorem rowScan_noDup {β : Type} (dOf : β → Dist) (gOf : β → ℤ)
    (xs : List β) (pr : List Dist) (ir : List ℤ)
    (hnd : noDupIdx ir) (hfresh : ∀ x ∈ ir, ∀ b ∈ xs, x < gOf b)
    (hmono : xs.Pairwise (fun b b' => gOf b < gOf b')) :
    noDupIdx (rowScan dOf gOf xs pr ir).2 := by
  induction xs generalizing pr ir with
  | nil => exact hnd
  | cons b bs ih =>
    rw [rowScan_cons]
    obtain ⟨hb, hbs⟩ := List.pairwise_cons.mp hmono
    refine ih _ _ (rowUpdate_noDup _ _ _ _ hnd
      (fun x hx => hfresh x hx b (List.mem_cons_self ..))) ?_ hbs
    intro x hx b' hb'
    rcases rowUpdate_snd_mem hx with h | ⟨rfl, _⟩
    · exact hfresh x h b' (List.mem_cons_of_mem _ hb')
    · exact hb b' hb'

/-! ### Exclusion-zone masking, profile lengths, enumeration -/

theorem applyExclZone_length (D : List Dist) (idx excl : ℕ) :
    (applyExclZone D idx excl).length = D.length :=
  List.length_mapIdx

theorem applyExclZone_getD_eq_top (D : List Dist) (idx excl j : ℕ)
    (h1 : idx ≤ j + excl) (h2 : j ≤ idx + excl) :
    (applyExclZone D idx excl).getD j ⊤ = ⊤ := by
  rw [List.getD_eq_getElem?_getD, applyExclZone, List.getElem?_mapIdx]
  cases hDj : D[j]? with
  | none => rfl
  | some d => simp [h1, h2]

/-- Any entry the mask leaves below `+∞` lies strictly outside the zone. -/
theorem applyExclZone_getD_lt_top {D : List Dist} {idx excl j : ℕ}
    (h : (applyExclZone D idx excl).getD j ⊤ < ⊤) :
    ¬ (idx ≤ j + excl ∧ j ≤ idx + excl) := by
  rintro ⟨h1, h2⟩
  rw [applyExclZone_getD_eq_top D idx excl j h1 h2] at h
  exact lt_irrefl _ h

theorem calcDistProfile_length (m : ℕ) (QT : List ℚ) (muQ : Dist)
    (vQ : Option ℚ) (M : List Dist) (V : List (Option ℚ)) :
    (calcDistProfile m QT muQ vQ M V).length = QT.length := by
  simp [calcDistProfile]

theorem egressQTnew_length (s : State) (t : Option ℚ) :
    (egressQTnew s t).length = nsub s := by
  simp [egressQTnew, nsub]

theorem egressD_length (s : State) (t : Option ℚ) :
    (egressD s t).length = nsub s := by
  rw [egressD]
  split
  · rw [applyExclZone_length, List.length_map, calcDistProfile_length,
      egressQTnew_length]
  · rw [applyExclZone_length, calcDistProfile_length, egressQTnew_length]

theorem growQTnew_length (s : State) (t : Option ℚ) :
    (growQTnew s t).length = s.T.length - s.m + 2 := by
  simp [growQTnew]

theorem growD_length (s : State) (t : Option ℚ) :
    (growD s t).length = s.T.length - s.m + 2 := by
  rw [growD]
  split
  · rw [applyExclZone_length, List.length_map, calcDistProfile_length,
      growQTnew_length]
  · rw [applyExclZone_length, calcDistProfile_length, growQTnew_length]

theorem mem_enum_spec {α : Type} {p : ℕ × α} {xs : List α} (h : p ∈ xs.enum) :
    p.1 < xs.length ∧ xs[p.1]? = some p.2 := by
  obtain ⟨x, i⟩ := p
  obtain ⟨-, h2, h3⟩ := List.mem_enumFrom h
  simp only [Nat.zero_add] at h2
  refine ⟨h2, ?_⟩
  rw [List.getElem?_eq_getElem h2]
  simp [h3]

theorem enumFrom_pairwise_fst {α : Type} (n : ℕ) (xs : List α) :
    (List.enumFrom n xs).Pairwise (fun a b => a.1 < b.1) := by
  induction xs generalizing n with
  | nil => exact List.Pairwise.nil
  | cons x xs ih =>
    rw [List.enumFrom_cons, List.pairwise_cons]
    refine ⟨?_, ih (n + 1)⟩
    intro p hp
    have := (List.mem_enumFrom hp).1
    omega

theorem enum_pairwise_fst {α : Type} (xs : List α) :
    xs.enum.Pairwise (fun a b => a.1 < b.1) :=
  enumFrom_pairwise_fst 0 xs

/-- Writing `f i` at every index of a list of indices (all in range): the
result reads `f j` at every listed `j` and is untouched elsewhere. -/
theorem foldl_set_getD {α : Type} (idxs : List ℕ) (f : ℕ → α) (base : List α)
    (dflt : α) (j : ℕ) (hb : ∀ i ∈ idxs, i < base.length) :
    (idxs.foldl (fun acc i => acc.set i (f i)) base).getD j dflt =
      if j ∈ idxs then f j else base.getD j dflt := by
  induction idxs generalizing base with
  | nil => simp
  | cons i rest ih =>
    rw [List.foldl_cons]
    rw [ih (base.set i (f i)) (by
      intro a ha
      rw [List.length_set]
      exact hb a (List.mem_cons_of_mem _ ha))]
    by_cases hjr : j ∈ rest
    · simp [hjr, List.mem_cons]
    · by_cases hji : j = i
      · subst hji
        have hlen : j < base.length := hb j (List.mem_cons_self ..)
        simp only [hjr, if_false, List.mem_cons, hjr, or_false, if_pos rfl]
        rw [List.getD_eq_getElem?_getD, List.getElem?_set, if_pos rfl,
          if_pos hlen]
        rfl
      · simp only [hjr, if_false, List.mem_cons, hji, false_or, hjr, if_false]
        rw [List.getD_eq_getElem?_getD, List.getElem?_set,
          if_neg (fun hh => hji hh.symm), ← List.getD_eq_getElem?_getD]

theorem foldl_set_length {α : Type} (idxs : List ℕ) (f : ℕ → α)
    (base : List α) :
    (idxs.foldl (fun acc i => acc.set i (f i)) base).length = base.length := by
  induction idxs generalizing base with
  | nil => rfl
  | cons i rest ih =>
    rw [List.foldl_cons, ih, List.length_set]

/-- The left-neighbor fold of the modelled seed returns `-1` or one of the
scanned candidates. -/
theorem foldl_best_snd (xs : List ℕ) (df : ℕ → Dist) (acc : Dist × ℤ) :
    (xs.foldl (fun b j => if df j < b.1 then (df j, (j : ℤ)) else b) acc).2
        = acc.2 ∨
    ∃ j ∈ xs,
      (xs.foldl (fun b j => if df j < b.1 then (df j, (j : ℤ)) else b) acc).2
        = (j : ℤ) := by
  induction xs generalizing acc with
  | nil => exact Or.inl rfl
  | cons x rest ih =>
    rw [List.foldl_cons]
    rcases ih (if df x < acc.1 then (df x, (x : ℤ)) else acc) with h | ⟨j, hj, h⟩
    · rw [h]
      by_cases hx : df x < acc.1
      · exact Or.inr ⟨x, List.mem_cons_self .., by rw [if_pos hx]⟩
      · rw [if_neg hx]
        exact Or.inl rfl
    · exact Or.inr ⟨j, List.mem_cons_of_mem _ hj, h⟩

theorem seedLeft_cases (T : List ℚ) (M : List Dist) (V : List (Option ℚ))
    (m e i ns : ℕ) :
    seedLeft T M V m e i ns = -1 ∨
    ∃ j ∈ (List.range ns).filter (fun j : ℕ => decide (j + e < i)),
      seedLeft T M V m e i ns = (j : ℤ) := by
  unfold seedLeft
  exact foldl_best_snd _ _ _

/-! ### Row access in the updated states -/

theorem egressRows_length (s : State) (t : Option ℚ) :
    (egressRows s t).length = s.P.length := by
  simp [egressRows]

theorem growRows_length (s : State) (t : Option ℚ) :
    (growRows s t).length = s.T.length - s.m + 1 := by
  simp [growRows]

theorem egressLast_fst_length (s : State) (t : Option ℚ) :
    (egressLast s t).1.length = s.k := by
  rw [egressLast, rowScan_fst_length, List.length_replicate]

theorem egressLast_snd_length (s : State) (t : Option ℚ) :
    (egressLast s t).2.length = s.k := by
  rw [egressLast, rowScan_snd_length, List.length_replicate]

theorem growLast_fst_length (s : State) (t : Option ℚ) :
    (growLast s t).1.length = s.k := by
  rw [growLast, rowScan_fst_length, List.length_replicate]

theorem growLast_snd_length (s : State) (t : Option ℚ) :
    (growLast s t).2.length = s.k := by
  rw [growLast, rowScan_snd_length, List.length_replicate]

/-- The global neighbor index inserted into pre-existing rows by the egress
update, `D.shape[0] + n_appended - 1`. -/
def egressG (s : State) (t : Option ℚ) : ℤ :=
  ((egressD s t).length : ℤ) + ((s.nApp : ℤ) + 1) - 1

theorem egressP_getD (s : State) (t : Option ℚ) {i : ℕ} (hi : i < s.P.length)
    (hne : i ≠ s.T.length - s.m) :
    (updateEgress s t).P.getD i [] =
      (rowUpdate ((shiftL s.P).getD i []) ((shiftL s.I).getD i [])
        ((egressD s t).getD i ⊤) (egressG s t)).1 := by
  show (((egressRows s t).map Prod.fst).set (s.T.length - s.m)
      (egressLast s t).1).getD i [] = _
  rw [List.getD_eq_getElem?_getD, List.getElem?_set,
    if_neg (fun hh => hne hh.symm), ← List.getD_eq_getElem?_getD,
    egressRows, List.map_map, getD_map_range _ _ hi]
  rfl

theorem egressI_getD (s : State) (t : Option ℚ) {i : ℕ} (hi : i < s.P.length)
    (hne : i ≠ s.T.length - s.m) :
    (updateEgress s t).I.getD i [] =
      (rowUpdate ((shiftL s.P).getD i []) ((shiftL s.I).getD i [])
        ((egressD s t).getD i ⊤) (egressG s t)).2 := by
  show (((egressRows s t).map Prod.snd).set (s.T.length - s.m)
      (egressLast s t).2).getD i [] = _
  rw [List.getD_eq_getElem?_getD, List.getElem?_set,
    if_neg (fun hh => hne hh.symm), ← List.getD_eq_getElem?_getD,
    egressRows, List.map_map, getD_map_range _ _ hi]
  rfl

theorem egressP_getD_last (s : State) (t : Option ℚ)
    (hl : s.T.length - s.m < s.P.length) :
    (updateEgress s t).P.getD (s.T.length - s.m) [] = (egressLast s t).1 := by
  show (((egressRows s t).map Prod.fst).set (s.T.length - s.m)
      (egressLast s t).1).getD _ [] = _
  rw [List.getD_eq_getElem?_getD, List.getElem?_set, if_pos rfl,
    if_pos (by rw [List.length_map, egressRows_length]; exact hl)]
  rfl

theorem egressI_getD_last (s : State) (t : Option ℚ)
    (hl : s.T.length - s.m < s.P.length) :
    (updateEgress s t).I.getD (s.T.length - s.m) [] = (egressLast s t).2 := by
  show (((egressRows s t).map Prod.snd).set (s.T.length - s.m)
      (egressLast s t).2).getD _ [] = _
  rw [List.getD_eq_getElem?_getD, List.getElem?_set, if_pos rfl,
    if_pos (by rw [List.length_map, egressRows_length]; exact hl)]
  rfl

theorem growP_getD (s : State) (t : Option ℚ) {i : ℕ}
    (hi : i < s.T.length - s.m + 1) :
    (updateGrow s t).P.getD i [] =
      (rowUpdate (s.P.getD i []) (s.I.getD i []) ((growD s t).getD i ⊤)
        ((s.T.length - s.m + 1 : ℕ) : ℤ)).1 := by
  show ((growRows s t).map Prod.fst ++ [(growLast s t).1]).getD i [] = _
  rw [List.getD_append _ _ _ _ (by rw [List.length_map, growRows_length]; exact hi),
    growRows, List.map_map, getD_map_range _ _ hi]
  rfl

theorem growI_getD (s : State) (t : Option ℚ) {i : ℕ}
    (hi : i < s.T.length - s.m + 1) :
    (updateGrow s t).I.getD i [] =
      (rowUpdate (s.P.getD i []) (s.I.getD i []) ((growD s t).getD i ⊤)
        ((s.T.length - s.m + 1 : ℕ) : ℤ)).2 := by
  show ((growRows s t).map Prod.snd ++ [(growLast s t).2]).getD i [] = _
  rw [List.getD_append _ _ _ _ (by rw [List.length_map, growRows_length]; exact hi),
    growRows, List.map_map, getD_map_range _ _ hi]
  rfl

theorem growP_getD_last (s : State) (t : Option ℚ) :
    (updateGrow s t).P.getD (s.T.length - s.m + 1) [] = (growLast s t).1 := by
  show ((growRows s t).map Prod.fst ++ [(growLast s t).1]).getD _ [] = _
  rw [List.getD_eq_getElem?_getD, List.getElem?_append,
    if_neg (by rw [List.length_map, growRows_length]; omega)]
  rw [List.length_map, growRows_length, Nat.sub_self, List.getElem?_cons_zero]
  rfl

theorem growI_getD_last (s : State) (t : Option ℚ) :
    (updateGrow s t).I.getD (s.T.length - s.m + 1) [] = (growLast s t).2 := by
  show ((growRows s t).map Prod.snd ++ [(growLast s t).2]).getD _ [] = _
  rw [List.getD_eq_getElem?_getD, List.getElem?_append,
    if_neg (by rw [List.length_map, growRows_length]; omega)]
  rw [List.length_map, growRows_length, Nat.sub_self, List.getElem?_cons_zero]
  rfl

theorem getD_ge_length {α : Type} {xs : List α} {i : ℕ} (d : α)
    (h : xs.length ≤ i) : xs.getD i d = d := by
  rw [List.getD_eq_getElem?_getD, List.getElem?_eq_none h]
  rfl

theorem getD_replicate_self {α : Type} (k r : ℕ) (v : α) :
    (List.replicate k v).getD r v = v := by
  rw [List.getD_eq_getElem?_getD, List.getElem?_replicate]
  split <;> rfl

theorem sorted_replicate_top (k : ℕ) :
    (List.replicate k (⊤ : Dist)).Sorted (· ≤ ·) :=
  List.pairwise_replicate.mpr (Or.inr le_rfl)

theorem noDup_replicate_neg1 (k : ℕ) : noDupIdx (List.replicate k (-1 : ℤ)) :=
  List.pairwise_replicate.mpr (Or.inr (fun _ => rfl))

theorem pairOK_replicate (k : ℕ) :
    pairOK (List.replicate k (⊤ : Dist)) (List.replicate k (-1 : ℤ)) :=
  fun r _ => getD_replicate_self k r (-1)

theorem pairOK_nil : pairOK [] [] := fun _ _ => rfl

/-- The egress distance profile is an exclusion-zone mask, centered at the
last position, of a profile of the right length. -/
theorem egressD_as_mask (s : State) (t : Option ℚ) :
    ∃ D1 : List Dist, D1.length = nsub s ∧
      egressD s t = applyExclZone D1 (D1.length - 1) s.exclZone := by
  refine ⟨if ((egressTfin s t).drop (s.Tfin.length - s.m)).any (fun b => !b)
    then (calcDistProfile s.m (egressQTnew s t) (egressStats s t).1
      (egressStats s t).2 (egressM s t) (egressV s t)).map (fun _ => (⊤ : Dist))
    else calcDistProfile s.m (egressQTnew s t) (egressStats s t).1
      (egressStats s t).2 (egressM s t) (egressV s t), ?_, rfl⟩
  split
  · rw [List.length_map, calcDistProfile_length, egressQTnew_length]
  · rw [calcDistProfile_length, egressQTnew_length]

theorem growD_as_mask (s : State) (t : Option ℚ) :
    ∃ D1 : List Dist, D1.length = s.T.length - s.m + 2 ∧
      growD s t = applyExclZone D1 (D1.length - 1) s.exclZone := by
  refine ⟨if ((growTfin s t).drop ((growTfin s t).length - s.m)).any (fun b => !b)
    then (calcDistProfile s.m (growQTnew s t) (growStats s t).1
      (growStats s t).2 (s.M_T ++ [(growStats s t).1])
      (s.V_T ++ [(growStats s t).2])).map (fun _ => (⊤ : Dist))
    else calcDistProfile s.m (growQTnew s t) (growStats s t).1
      (growStats s t).2 (s.M_T ++ [(growStats s t).1])
      (s.V_T ++ [(growStats s t).2]), ?_, rfl⟩
  split
  · rw [List.length_map, calcDistProfile_length, growQTnew_length]
  · rw [calcDistProfile_length, growQTnew_length]

/-- A position of the egress distance profile left below `+∞` by the mask is
strictly more than the exclusion-zone width before the newest position. -/
theorem egressD_far {s : State} {t : Option ℚ} {i : ℕ}
    (h : (egressD s t).getD i ⊤ < ⊤) : i + s.exclZone < nsub s - 1 := by
  obtain ⟨D1, hlen, heq⟩ := egressD_as_mask s t
  rw [heq] at h
  have hi : i < nsub s := by
    by_contra hge
    rw [getD_ge_length _ (by rw [applyExclZone_length, hlen]; omega)] at h
    exact lt_irrefl _ h
  have h2 := applyExclZone_getD_lt_top h
  rw [hlen] at h2
  rcases not_and_or.mp h2 with h3 | h3 <;> omega

theorem growD_far {s : State} {t : Option ℚ} {i : ℕ}
    (h : (growD s t).getD i ⊤ < ⊤) : i + s.exclZone < s.T.length - s.m + 1 := by
  obtain ⟨D1, hlen, heq⟩ := growD_as_mask s t
  rw [heq] at h
  have hi : i < s.T.length - s.m + 2 := by
    by_contra hge
    rw [getD_ge_length _ (by rw [applyExclZone_length, hlen]; omega)] at h
    exact lt_irrefl _ h
  have h2 := applyExclZone_getD_lt_top h
  rw [hlen] at h2
  rcases not_and_or.mp h2 with h3 | h3 <;> omega

theorem egressG_eq (s : State) (t : Option ℚ) :
    egressG s t = (nsub s : ℤ) + (s.nApp : ℤ) := by
  rw [egressG, egressD_length]
  ring

/-! ### Preservation of well-formedness -/

theorem WF_updateEgress (s : State) (t : Option ℚ) (h : WF s) :
    WF (updateEgress s t) := by
  obtain ⟨hm, hk, hn, hTfin, hQT, hM, hV, hP, hI, hlP, hlI, hPk, hIk⟩ := h
  have hT : (updateEgress s t).T.length = s.T.length := by
    show ((shiftL s.T).set _ _).length = _
    rw [List.length_set, shiftL_length]
  have hns : nsub (updateEgress s t) = nsub s := by
    simp only [nsub, hT]
    rfl
  refine ⟨hm, hk, by rw [hT]; exact hn, ?_, ?_, ?_, ?_, ?_, ?_, ?_, ?_, ?_, ?_⟩
  · show ((shiftL s.Tfin).set _ _).length = _
    rw [List.length_set, shiftL_length, hTfin, hT]
  · rw [hns]
    show (egressQTnew s t).length = _
    exact egressQTnew_length s t
  · rw [hns]
    show ((shiftL s.M_T).set _ _).length = _
    rw [List.length_set, shiftL_length, hM]
  · rw [hns]
    show ((shiftL s.V_T).set _ _).length = _
    rw [List.length_set, shiftL_length, hV]
  · rw [hns]
    show (((egressRows s t).map Prod.fst).set _ _).length = _
    rw [List.length_set, List.length_map, egressRows_length, hP]
  · rw [hns]
    show (((egressRows s t).map Prod.snd).set _ _).length = _
    rw [List.length_set, List.length_map, egressRows_length, hP]
  · rw [hns]
    show ((shiftL s.left_P).set _ _).length = _
    rw [List.length_set, shiftL_length, hlP]
  · rw [hns]
    show ((shiftL s.left_I).set _ _).length = _
    rw [List.length_set, shiftL_length, hlI]
  · intro r hr
    rcases List.mem_or_eq_of_mem_set hr with hr | rfl
    · obtain ⟨i, hi, rfl⟩ := List.mem_map.mp hr
      obtain ⟨j, hj, rfl⟩ := List.mem_map.mp hi
      rw [List.mem_range] at hj
      show (rowUpdate _ _ _ _).1.length = _
      rw [rowUpdate_fst_length]
      exact hPk _ (mem_shiftL (getD_mem [] (by rw [shiftL_length]; exact hj)))
    · show (egressLast s t).1.length = _
      exact egressLast_fst_length s t
  · intro r hr
    rcases List.mem_or_eq_of_mem_set hr with hr | rfl
    · obtain ⟨i, hi, rfl⟩ := List.mem_map.mp hr
      obtain ⟨j, hj, rfl⟩ := List.mem_map.mp hi
      rw [List.mem_range] at hj
      show (rowUpdate _ _ _ _).2.length = _
      rw [rowUpdate_snd_length]
      exact hIk _ (mem_shiftL (getD_mem []
        (by rw [shiftL_length, hI, ← hP]; exact hj)))
    · show (egressLast s t).2.length = _
      exact egressLast_snd_length s t

theorem WF_updateGrow (s : State) (t : Option ℚ) (h : WF s) :
    WF (updateGrow s t) := by
  obtain ⟨hm, hk, hn, hTfin, hQT, hM, hV, hP, hI, hlP, hlI, hPk, hIk⟩ := h
  have hT : (updateGrow s t).T.length = s.T.length + 1 := by
    show (s.T ++ [t.getD 0]).length = _
    simp
  have hns : nsub (updateGrow s t) = nsub s + 1 := by
    simp only [nsub, hT]
    show s.T.length + 1 - s.m + 1 = s.T.length - s.m + 1 + 1
    omega
  have hnsv : nsub s = s.T.length - s.m + 1 := rfl
  refine ⟨hm, hk, by show s.m + 1 ≤ (updateGrow s t).T.length; rw [hT]; omega,
    ?_, ?_, ?_, ?_, ?_, ?_, ?_, ?_, ?_, ?_⟩
  · show (s.Tfin ++ [t.isSome]).length = _
    rw [hT]
    simp [hTfin]
  · rw [hns]
    show (growQTnew s t).length = _
    rw [growQTnew_length, hnsv]
  · rw [hns]
    show (s.M_T ++ [(growStats s t).1]).length = _
    simp [hM]
  · rw [hns]
    show (s.V_T ++ [(growStats s t).2]).length = _
    simp [hV]
  · rw [hns]
    show ((growRows s t).map Prod.fst ++ [(growLast s t).1]).length = _
    rw [List.length_append, List.length_map, growRows_length, hnsv]
    rfl
  · rw [hns]
    show ((growRows s t).map Prod.snd ++ [(growLast s t).2]).length = _
    rw [List.length_append, List.length_map, growRows_length, hnsv]
    rfl
  · rw [hns]
    show (s.left_P ++ [(growLast s t).1.getD 0 ⊤]).length = _
    simp [hlP]
  · rw [hns]
    show (s.left_I ++ [(growLast s t).2.getD 0 (-1)]).length = _
    simp [hlI]
  · intro r hr
    rcases List.mem_append.mp hr with hr | hr
    · obtain ⟨i, hi, rfl⟩ := List.mem_map.mp hr
      obtain ⟨j, hj, rfl⟩ := List.mem_map.mp hi
      rw [List.mem_range] at hj
      show (rowUpdate _ _ _ _).1.length = _
      rw [rowUpdate_fst_length]
      exact hPk _ (getD_mem [] (by rw [hP, hnsv]; exact hj))
    · rw [List.mem_singleton.mp hr]
      show (growLast s t).1.length = _
      exact growLast_fst_length s t
  · intro r hr
    rcases List.mem_append.mp hr with hr | hr
    · obtain ⟨i, hi, rfl⟩ := List.mem_map.mp hr
      obtain ⟨j, hj, rfl⟩ := List.mem_map.mp hi
      rw [List.mem_range] at hj
      show (rowUpdate _ _ _ _).2.length = _
      rw [rowUpdate_snd_length]
      exact hIk _ (getD_mem [] (by rw [hI, hnsv]; exact hj))
    · rw [List.mem_singleton.mp hr]
      show (growLast s t).2.length = _
      exact growLast_snd_length s t

/-! ### The maintained invariants -/

/-- Every top-k profile row is sorted non-decreasing. -/
def SortedRows (s : State) : Prop :=
  ∀ r ∈ s.P, r.Sorted (· ≤ ·)

/-- Every `+∞` slot of a profile row has `-1` in the aligned index slot. -/
def PairRows (s : State) : Prop :=
  ∀ i : ℕ, pairOK (s.P.getD i []) (s.I.getD i [])

/-- Every stored neighbor index is at least `-1` and below the global index
that the next appended window will receive. -/
def IdxRange (s : State) : Prop :=
  ∀ row ∈ s.I, ∀ x ∈ row, -1 ≤ x ∧ x < (nsub s : ℤ) + (s.nApp : ℤ)

/-- No index row stores the same neighbor position twice. -/
def NoDupRows (s : State) : Prop :=
  ∀ row ∈ s.I, noDupIdx row

/-- Exclusion zone, in the global frame: a stored neighbor index (global
under egress) differs from the subsequence's global position `i + nApp` by
more than the exclusion-zone width. -/
def ExclOK (s : State) : Prop :=
  ∀ i : ℕ, ∀ x ∈ s.I.getD i [], 0 ≤ x →
    s.exclZone < (x - ((i : ℤ) + (s.nApp : ℤ))).natAbs

/-- Causality, in the global frame: the left neighbor index is at most the
subsequence's global position, and the left profile value dominates the
unrestricted top-1 value. -/
def LeftOK (s : State) : Prop :=
  ∀ i : ℕ, i < nsub s →
    s.left_I.getD i (-1) ≤ (i : ℤ) + (s.nApp : ℤ) ∧
    (s.P.getD i []).getD 0 ⊤ ≤ s.left_P.getD i ⊤

/-- The master invariant carried through initialization and every update. -/
def Inv (s : State) : Prop :=
  WF s ∧ SortedRows s ∧ PairRows s ∧ IdxRange s ∧ NoDupRows s ∧ ExclOK s ∧
  LeftOK s ∧ (s.egress = false → s.nApp = 0)

theorem updateEgress_P_def (s : State) (t : Option ℚ) :
    (updateEgress s t).P =
      ((egressRows s t).map Prod.fst).set (s.T.length - s.m)
        (egressLast s t).1 := rfl

theorem updateEgress_I_def (s : State) (t : Option ℚ) :
    (updateEgress s t).I =
      ((egressRows s t).map Prod.snd).set (s.T.length - s.m)
        (egressLast s t).2 := rfl

theorem updateEgress_leftP_def (s : State) (t : Option ℚ) :
    (updateEgress s t).left_P =
      (shiftL s.left_P).set (s.T.length - s.m)
        ((egressLast s t).1.getD 0 ⊤) := rfl

theorem updateEgress_leftI_def (s : State) (t : Option ℚ) :
    (updateEgress s t).left_I =
      (shiftL s.left_I).set (s.T.length - s.m)
        ((egressLast s t).2.getD 0 (-1)) := rfl

theorem updateGrow_P_def (s : State) (t : Option ℚ) :
    (updateGrow s t).P =
      (growRows s t).map Prod.fst ++ [(growLast s t).1] := rfl

theorem updateGrow_I_def (s : State) (t : Option ℚ) :
    (updateGrow s t).I =
      (growRows s t).map Prod.snd ++ [(growLast s t).2] := rfl

theorem updateGrow_leftP_def (s : State) (t : Option ℚ) :
    (updateGrow s t).left_P =
      s.left_P ++ [(growLast s t).1.getD 0 ⊤] := rfl

theorem updateGrow_leftI_def (s : State) (t : Option ℚ) :
    (updateGrow s t).left_I =
      s.left_I ++ [(growLast s t).2.getD 0 (-1)] := rfl

theorem updateEgress_nsub (s : State) (t : Option ℚ) :
    nsub (updateEgress s t) = nsub s := by
  show (((shiftL s.T).set (s.T.length - 1) (t.getD 0)).length - s.m + 1) = _
  rw [List.length_set, shiftL_length]
  rfl

theorem updateGrow_nsub (s : State) (t : Option ℚ) (h : s.m ≤ s.T.length) :
    nsub (updateGrow s t) = nsub s + 1 := by
  show ((s.T ++ [t.getD 0]).length - s.m + 1) = s.T.length - s.m + 1 + 1
  rw [List.length_append]
  show s.T.length + 1 - s.m + 1 = _
  omega

/-! ### Preservation of the row invariants by the egress update -/

theorem sortedRows_updateEgress (s : State) (t : Option ℚ)
    (h : SortedRows s) : SortedRows (updateEgress s t) := by
  intro r hr
  rw [updateEgress_P_def] at hr
  rcases List.mem_or_eq_of_mem_set hr with hr | rfl
  · obtain ⟨pi, hpi, rfl⟩ := List.mem_map.mp hr
    obtain ⟨j, hj, rfl⟩ := List.mem_map.mp hpi
    rw [List.mem_range] at hj
    exact rowUpdate_fst_sorted _ _ _ _
      (h _ (mem_shiftL (getD_mem [] (by rw [shiftL_length]; exact hj))))
  · exact rowScan_fst_sorted _ _ _ _ _ (sorted_replicate_top s.k)

theorem pairRows_updateEgress (s : State) (t : Option ℚ) (hWF : WF s)
    (h : PairRows s) : PairRows (updateEgress s t) := by
  obtain ⟨hm, hk, hn, hTfin, hQT, hM, hV, hP, hI, hlP, hlI, hPk, hIk⟩ := hWF
  have hnsv : nsub s = s.T.length - s.m + 1 := rfl
  have hl : s.T.length - s.m < s.P.length := by rw [hP]; omega
  intro i
  by_cases hilt : i < s.T.length - s.m
  · rw [egressP_getD s t (by omega) (by omega),
      egressI_getD s t (by omega) (by omega)]
    apply rowUpdate_pairOK
    · rw [hPk _ (mem_shiftL (getD_mem [] (by rw [shiftL_length]; omega))),
        hIk _ (mem_shiftL (getD_mem [] (by rw [shiftL_length, hI, ← hP]; omega)))]
    · rw [shiftL_getD s.P [] i (by rw [hP]; omega),
        shiftL_getD s.I [] i (by rw [hI]; omega)]
      exact h (i + 1)
  · by_cases hieq : i = s.T.length - s.m
    · subst hieq
      rw [egressP_getD_last s t hl, egressI_getD_last s t hl, egressLast]
      exact rowScan_pairOK _ _ _ _ _ (by simp) (pairOK_replicate s.k)
    · rw [updateEgress_P_def, updateEgress_I_def,
        getD_ge_length []
          (by rw [List.length_set, List.length_map, egressRows_length, hP]; omega),
        getD_ge_length []
          (by rw [List.length_set, List.length_map, egressRows_length, hP]; omega)]
      exact pairOK_nil

theorem idxRange_updateEgress (s : State) (t : Option ℚ) (hWF : WF s)
    (h : IdxRange s) : IdxRange (updateEgress s t) := by
  obtain ⟨hm, hk, hn, hTfin, hQT, hM, hV, hP, hI, hlP, hlI, hPk, hIk⟩ := hWF
  have hns : nsub (updateEgress s t) = nsub s := updateEgress_nsub s t
  have hnsub1 : 1 ≤ nsub s := by unfold nsub; omega
  intro row hrow x hx
  rw [hns]
  show -1 ≤ x ∧ x < (nsub s : ℤ) + ((s.nApp + 1 : ℕ) : ℤ)
  rw [updateEgress_I_def] at hrow
  rcases List.mem_or_eq_of_mem_set hrow with hrow | rfl
  · obtain ⟨pi, hpi, rfl⟩ := List.mem_map.mp hrow
    obtain ⟨j, hj, rfl⟩ := List.mem_map.mp hpi
    rw [List.mem_range] at hj
    rcases rowUpdate_snd_mem hx with hmem | ⟨rfl, -⟩
    · have hold := h _ (mem_shiftL (getD_mem []
        (by rw [shiftL_length, hI, ← hP]; exact hj))) x hmem
      constructor
      · exact hold.1
      · push_cast
        push_cast at hold
        omega
    · rw [egressD_length]
      constructor
      · omega
      · push_cast; omega
  · rcases rowScan_snd_mem hx with hmem | ⟨b, hb, rfl, hd⟩
    · have := List.eq_of_mem_replicate hmem
      subst this
      constructor
      · exact le_rfl
      · push_cast; omega
    · have hb1 := (mem_enum_spec hb).1
      rw [egressD_length] at hb1
      constructor
      · omega
      · push_cast; omega

theorem noDupRows_updateEgress (s : State) (t : Option ℚ) (hWF : WF s)
    (hnd : NoDupRows s) (hr : IdxRange s) : NoDupRows (updateEgress s t) := by
  obtain ⟨hm, hk, hn, hTfin, hQT, hM, hV, hP, hI, hlP, hlI, hPk, hIk⟩ := hWF
  intro row hrow
  rw [updateEgress_I_def] at hrow
  rcases List.mem_or_eq_of_mem_set hrow with hrow | rfl
  · obtain ⟨pi, hpi, rfl⟩ := List.mem_map.mp hrow
    obtain ⟨j, hj, rfl⟩ := List.mem_map.mp hpi
    rw [List.mem_range] at hj
    have hmem : (shiftL s.I).getD j [] ∈ s.I :=
      mem_shiftL (getD_mem [] (by rw [shiftL_length, hI, ← hP]; exact hj))
    refine rowUpdate_noDup _ _ _ _ (hnd _ hmem) ?_
    intro x hx
    rw [egressD_length]
    have h2 := (hr _ hmem x hx).2
    push_cast at h2
    omega
  · rw [egressLast]
    refine rowScan_noDup _ _ _ _ _ (noDup_replicate_neg1 s.k) ?_ ?_
    · intro x hx b hb
      rw [List.eq_of_mem_replicate hx]
      have : (0 : ℤ) ≤ b.1 := Int.natCast_nonneg _
      omega
    · refine List.Pairwise.imp ?_ (enum_pairwise_fst (egressD s t))
      intro a b hab
      omega

theorem exclOK_updateEgress (s : State) (t : Option ℚ) (hWF : WF s)
    (h : ExclOK s) : ExclOK (updateEgress s t) := by
  obtain ⟨hm, hk, hn, hTfin, hQT, hM, hV, hP, hI, hlP, hlI, hPk, hIk⟩ := hWF
  have hnsv : nsub s = s.T.length - s.m + 1 := rfl
  have hl : s.T.length - s.m < s.P.length := by rw [hP]; omega
  intro i x hx hx0
  show (s.exclZone : ℕ) < (x - ((i : ℤ) + ((s.nApp + 1 : ℕ) : ℤ))).natAbs
  by_cases hilt : i < s.T.length - s.m
  · rw [egressI_getD s t (by omega) (by omega)] at hx
    rcases rowUpdate_snd_mem hx with hmem | ⟨rfl, hins⟩
    · rw [shiftL_getD s.I [] i (by rw [hI]; omega)] at hmem
      have hold := h (i + 1) x hmem hx0
      push_cast
      push_cast at hold
      omega
    · have hd : (egressD s t).getD i ⊤ < ⊤ := lt_of_lt_of_le hins le_top
      have hfar := egressD_far hd
      rw [egressG_eq]
      push_cast
      omega
  · by_cases hieq : i = s.T.length - s.m
    · subst hieq
      rw [egressI_getD_last s t hl] at hx
      rcases rowScan_snd_mem hx with hmem | ⟨b, hb, rfl, hd⟩
      · rw [List.eq_of_mem_replicate hmem] at hx0
        exact absurd hx0 (by norm_num)
      · obtain ⟨hb1, hb2⟩ := mem_enum_spec hb
        have hdval : (egressD s t).getD b.1 ⊤ < ⊤ := by
          rw [List.getD_eq_getElem?_getD, hb2]
          exact hd
        have hfar := egressD_far hdval
        rw [egressD_length] at hb1
        push_cast
        omega
    · rw [updateEgress_I_def,
        getD_ge_length []
          (by rw [List.length_set, List.length_map, egressRows_length, hP]; omega)] at hx
      exact absurd hx (List.not_mem_nil x)

theorem leftOK_updateEgress (s : State) (t : Option ℚ) (hWF : WF s)
    (_hs : SortedRows s) (h : LeftOK s) : LeftOK (updateEgress s t) := by
  obtain ⟨hm, hk, hn, hTfin, hQT, hM, hV, hP, hI, hlP, hlI, hPk, hIk⟩ := hWF
  have hnsv : nsub s = s.T.length - s.m + 1 := rfl
  have hl : s.T.length - s.m < s.P.length := by rw [hP]; omega
  intro i hi
  rw [updateEgress_nsub] at hi
  rw [updateEgress_leftP_def, updateEgress_leftI_def]
  show (((shiftL s.left_I).set _ _).getD i (-1) ≤ (i : ℤ) + ((s.nApp + 1 : ℕ) : ℤ)) ∧ _
  by_cases hilt : i < s.T.length - s.m
  · rw [List.getD_eq_getElem?_getD ((shiftL s.left_I).set _ _),
      List.getElem?_set, if_neg (by omega), ← List.getD_eq_getElem?_getD,
      shiftL_getD s.left_I (-1) i (by rw [hlI]; omega)]
    rw [List.getD_eq_getElem?_getD ((shiftL s.left_P).set _ _),
      List.getElem?_set, if_neg (by omega), ← List.getD_eq_getElem?_getD,
      shiftL_getD s.left_P ⊤ i (by rw [hlP]; omega)]
    obtain ⟨hL1, hL2⟩ := h (i + 1) (by omega)
    constructor
    · push_cast
      push_cast at hL1
      omega
    · rw [egressP_getD s t (by omega) (by omega)]
      refine le_trans ?_ hL2
      refine le_trans (rowUpdate_row0_mono ((shiftL s.P).getD i [])
        ((shiftL s.I).getD i []) ((egressD s t).getD i ⊤) (egressG s t)) ?_
      rw [shiftL_getD s.P [] i (by rw [hP]; omega)]
  · have hieq : i = s.T.length - s.m := by omega
    subst hieq
    rw [List.getD_eq_getElem?_getD ((shiftL s.left_I).set _ _),
      List.getElem?_set, if_pos rfl,
      if_pos (by rw [shiftL_length, hlI]; omega)]
    rw [List.getD_eq_getElem?_getD ((shiftL s.left_P).set _ _),
      List.getElem?_set, if_pos rfl,
      if_pos (by rw [shiftL_length, hlP]; omega)]
    constructor
    · show ((egressLast s t).2.getD 0 (-1) : ℤ) ≤ _
      have hmem0 : (egressLast s t).2.getD 0 (-1) ∈ (egressLast s t).2 :=
        getD_mem (-1) (by rw [egressLast_snd_length]; omega)
      rcases rowScan_snd_mem hmem0 with hmem | ⟨b, hb, heq, -⟩
      · rw [List.eq_of_mem_replicate hmem]
        push_cast
        omega
      · rw [heq]
        have hb1 := (mem_enum_spec hb).1
        rw [egressD_length] at hb1
        push_cast
        omega
    · show (((updateEgress s t).P.getD _ []).getD 0 ⊤ : Dist) ≤ _
      rw [egressP_getD_last s t hl, Option.getD_some]

/-! ### Preservation of the row invariants by the non-egress update -/

theorem sortedRows_updateGrow (s : State) (t : Option ℚ)
    (h : SortedRows s) : SortedRows (updateGrow s t) := by
  intro r hr
  rw [updateGrow_P_def] at hr
  rcases List.mem_append.mp hr with hr | hr
  · obtain ⟨pi, hpi, rfl⟩ := List.mem_map.mp hr
    obtain ⟨j, hj, rfl⟩ := List.mem_map.mp hpi
    rw [List.mem_range] at hj
    by_cases hjP : j < s.P.length
    · exact rowUpdate_fst_sorted _ _ _ _ (h _ (getD_mem [] hjP))
    · rw [getD_ge_length [] (by omega)]
      exact rowUpdate_fst_sorted _ _ _ _ (List.sorted_nil)
  · rw [List.mem_singleton.mp hr]
    exact rowScan_fst_sorted _ _ _ _ _ (sorted_replicate_top s.k)

theorem pairRows_updateGrow (s : State) (t : Option ℚ) (hWF : WF s)
    (h : PairRows s) : PairRows (updateGrow s t) := by
  obtain ⟨hm, hk, hn, hTfin, hQT, hM, hV, hP, hI, hlP, hlI, hPk, hIk⟩ := hWF
  have hnsv : nsub s = s.T.length - s.m + 1 := rfl
  intro i
  by_cases hilt : i < s.T.length - s.m + 1
  · rw [growP_getD s t hilt, growI_getD s t hilt]
    apply rowUpdate_pairOK
    · rw [hPk _ (getD_mem [] (by omega)), hIk _ (getD_mem [] (by rw [hI]; omega))]
    · exact h i
  · by_cases hieq : i = s.T.length - s.m + 1
    · subst hieq
      rw [growP_getD_last, growI_getD_last, growLast]
      exact rowScan_pairOK _ _ _ _ _ (by simp) (pairOK_replicate s.k)
    · rw [updateGrow_P_def, updateGrow_I_def,
        getD_ge_length [] (by
          rw [List.length_append, List.length_map, growRows_length]
          simp only [List.length_singleton]
          omega),
        getD_ge_length [] (by
          rw [List.length_append, List.length_map, growRows_length]
          simp only [List.length_singleton]
          omega)]
      exact pairOK_nil

theorem idxRange_updateGrow (s : State) (t : Option ℚ) (hWF : WF s)
    (h : IdxRange s) : IdxRange (updateGrow s t) := by
  obtain ⟨hm, hk, hn, hTfin, hQT, hM, hV, hP, hI, hlP, hlI, hPk, hIk⟩ := hWF
  have hns : nsub (updateGrow s t) = nsub s + 1 := updateGrow_nsub s t (by omega)
  have hnsv : nsub s = s.T.length - s.m + 1 := rfl
  intro row hrow x hx
  rw [hns]
  show -1 ≤ x ∧ x < ((nsub s + 1 : ℕ) : ℤ) + (s.nApp : ℤ)
  rw [updateGrow_I_def] at hrow
  rcases List.mem_append.mp hrow with hrow | hrow
  · obtain ⟨pi, hpi, rfl⟩ := List.mem_map.mp hrow
    obtain ⟨j, hj, rfl⟩ := List.mem_map.mp hpi
    rw [List.mem_range] at hj
    rcases rowUpdate_snd_mem hx with hmem | ⟨rfl, -⟩
    · have hold := h _ (getD_mem [] (by rw [hI]; exact hj)) x hmem
      constructor
      · exact hold.1
      · push_cast at hold ⊢
        omega
    · constructor
      · push_cast; omega
      · show ((s.T.length - s.m + 1 : ℕ) : ℤ) < _
        push_cast
        omega
  · rw [List.mem_singleton.mp hrow] at hx
    rcases rowScan_snd_mem hx with hmem | ⟨b, hb, rfl, hd⟩
    · rw [List.eq_of_mem_replicate hmem]
      constructor
      · exact le_rfl
      · push_cast; omega
    · have hb1 := (mem_enum_spec hb).1
      rw [growD_length] at hb1
      constructor
      · omega
      · push_cast; omega

theorem noDupRows_updateGrow (s : State) (t : Option ℚ) (hWF : WF s)
    (h0 : s.nApp = 0) (hnd : NoDupRows s) (hr : IdxRange s) :
    NoDupRows (updateGrow s t) := by
  obtain ⟨hm, hk, hn, hTfin, hQT, hM, hV, hP, hI, hlP, hlI, hPk, hIk⟩ := hWF
  have hnsv : nsub s = s.T.length - s.m + 1 := rfl
  intro row hrow
  rw [updateGrow_I_def] at hrow
  rcases List.mem_append.mp hrow with hrow | hrow
  · obtain ⟨pi, hpi, rfl⟩ := List.mem_map.mp hrow
    obtain ⟨j, hj, rfl⟩ := List.mem_map.mp hpi
    rw [List.mem_range] at hj
    have hjI : j < s.I.length := by rw [hI]; omega
    have hmem : s.I.getD j [] ∈ s.I := getD_mem [] hjI
    refine rowUpdate_noDup _ _ _ _ (hnd _ hmem) ?_
    intro x hx
    have h2 := (hr _ hmem x hx).2
    rw [h0] at h2
    push_cast at h2 ⊢
    omega
  · rw [List.mem_singleton.mp hrow, growLast]
    refine rowScan_noDup _ _ _ _ _ (noDup_replicate_neg1 s.k) ?_ ?_
    · intro x hx b hb
      rw [List.eq_of_mem_replicate hx]
      have : (0 : ℤ) ≤ b.1 := Int.natCast_nonneg _
      omega
    · refine List.Pairwise.imp ?_ (enum_pairwise_fst (growD s t))
      intro a b hab
      omega

theorem exclOK_updateGrow (s : State) (t : Option ℚ) (hWF : WF s)
    (h0 : s.nApp = 0) (h : ExclOK s) : ExclOK (updateGrow s t) := by
  obtain ⟨hm, hk, hn, hTfin, hQT, hM, hV, hP, hI, hlP, hlI, hPk, hIk⟩ := hWF
  have hnsv : nsub s = s.T.length - s.m + 1 := rfl
  intro i x hx hx0
  show (s.exclZone : ℕ) < (x - ((i : ℤ) + (s.nApp : ℤ))).natAbs
  by_cases hilt : i < s.T.length - s.m + 1
  · rw [growI_getD s t hilt] at hx
    rcases rowUpdate_snd_mem hx with hmem | ⟨rfl, hins⟩
    · exact h i x hmem hx0
    · have hd : (growD s t).getD i ⊤ < ⊤ := lt_of_lt_of_le hins le_top
      have hfar := growD_far hd
      rw [h0]
      push_cast
      omega
  · by_cases hieq : i = s.T.length - s.m + 1
    · subst hieq
      rw [growI_getD_last] at hx
      rcases rowScan_snd_mem hx with hmem | ⟨b, hb, rfl, hd⟩
      · rw [List.eq_of_mem_replicate hmem] at hx0
        exact absurd hx0 (by norm_num)
      · obtain ⟨hb1, hb2⟩ := mem_enum_spec hb
        have hdval : (growD s t).getD b.1 ⊤ < ⊤ := by
          rw [List.getD_eq_getElem?_getD, hb2]
          exact hd
        have hfar := growD_far hdval
        rw [growD_length] at hb1
        rw [h0]
        push_cast
        omega
    · rw [updateGrow_I_def,
        getD_ge_length [] (by
          rw [List.length_append, List.length_map, growRows_length]
          simp only [List.length_singleton]
          omega)] at hx
      exact absurd hx (List.not_mem_nil x)

theorem leftOK_updateGrow (s : State) (t : Option ℚ) (hWF : WF s)
    (h : LeftOK s) : LeftOK (updateGrow s t) := by
  obtain ⟨hm, hk, hn, hTfin, hQT, hM, hV, hP, hI, hlP, hlI, hPk, hIk⟩ := hWF
  have hnsv : nsub s = s.T.length - s.m + 1 := rfl
  intro i hi
  rw [updateGrow_nsub s t (by omega)] at hi
  rw [updateGrow_leftP_def, updateGrow_leftI_def]
  by_cases hilt : i < s.T.length - s.m + 1
  · rw [List.getD_append _ _ _ _ (by rw [hlI]; omega),
      List.getD_append _ _ _ _ (by rw [hlP]; omega)]
    obtain ⟨hL1, hL2⟩ := h i (by omega)
    refine ⟨hL1, ?_⟩
    rw [growP_getD s t hilt]
    refine le_trans (rowUpdate_row0_mono (s.P.getD i []) (s.I.getD i [])
      ((growD s t).getD i ⊤) ((s.T.length - s.m + 1 : ℕ) : ℤ)) hL2
  · have hieq : i = s.T.length - s.m + 1 := by omega
    subst hieq
    rw [List.getD_eq_getElem?_getD (s.left_I ++ _), List.getElem?_append,
      if_neg (by rw [hlI]; omega), hlI, hnsv, Nat.sub_self,
      List.getElem?_cons_zero]
    rw [List.getD_eq_getElem?_getD (s.left_P ++ _), List.getElem?_append,
      if_neg (by rw [hlP]; omega), hlP, hnsv, Nat.sub_self,
      List.getElem?_cons_zero]
    constructor
    · show ((growLast s t).2.getD 0 (-1) : ℤ) ≤ _
      have hmem0 : (growLast s t).2.getD 0 (-1) ∈ (growLast s t).2 :=
        getD_mem (-1) (by rw [growLast_snd_length]; omega)
      rcases rowScan_snd_mem hmem0 with hmem | ⟨b, hb, heq, -⟩
      · rw [List.eq_of_mem_replicate hmem]
        push_cast
        omega
      · rw [heq]
        have hb1 := (mem_enum_spec hb).1
        rw [growD_length] at hb1
        push_cast
        omega
    · show (((updateGrow s t).P.getD _ []).getD 0 ⊤ : Dist) ≤ _
      rw [growP_getD_last, Option.getD_some]

/-! ### The invariants hold after initialization -/

theorem initT_length (Traw : List (Option ℚ)) :
    (initT Traw).length = Traw.length := by
  simp [initT]

theorem initTfin_length (Traw : List (Option ℚ)) :
    (initTfin Traw).length = Traw.length := by
  simp [initTfin]

theorem nsub_init (Traw : List (Option ℚ)) (m k : ℕ) (eg : Bool) :
    nsub (stumpiInit Traw m k eg) = Traw.length - m + 1 := by
  show (initT Traw).length - m + 1 = _
  rw [initT_length]

theorem slidingDot_length (Q T : List ℚ) :
    (slidingDot Q T).length = T.length - Q.length + 1 := by
  simp [slidingDot]

theorem seedRow_fst_length (T : List ℚ) (M : List Dist) (V : List (Option ℚ))
    (m k e i ns : ℕ) : (seedRow T M V m k e i ns).1.length = k := by
  rw [seedRow, rowScan_fst_length, List.length_replicate]

theorem seedRow_snd_length (T : List ℚ) (M : List Dist) (V : List (Option ℚ))
    (m k e i ns : ℕ) : (seedRow T M V m k e i ns).2.length = k := by
  rw [seedRow, rowScan_snd_length, List.length_replicate]

theorem initP_getD (Traw : List (Option ℚ)) (m k : ℕ) {i : ℕ}
    (hi : i < (initT Traw).length - m + 1) :
    ((initRows Traw m k).map Prod.fst).getD i [] =
      (seedRow (initT Traw) (initMV Traw m).1 (initMV Traw m).2 m k
        (initE m) i ((initT Traw).length - m + 1)).1 := by
  rw [initRows, List.map_map, getD_map_range _ _ hi]
  rfl

theorem initI_getD (Traw : List (Option ℚ)) (m k : ℕ) {i : ℕ}
    (hi : i < (initT Traw).length - m + 1) :
    ((initRows Traw m k).map Prod.snd).getD i [] =
      (seedRow (initT Traw) (initMV Traw m).1 (initMV Traw m).2 m k
        (initE m) i ((initT Traw).length - m + 1)).2 := by
  rw [initRows, List.map_map, getD_map_range _ _ hi]
  rfl

theorem initLI_getD (Traw : List (Option ℚ)) (m : ℕ) {i : ℕ}
    (hi : i < (initT Traw).length - m + 1) :
    (initLI Traw m).getD i (-1) =
      seedLeft (initT Traw) (initMV Traw m).1 (initMV Traw m).2 m
        (initE m) i ((initT Traw).length - m + 1) := by
  rw [initLI, getD_map_range _ _ hi]

theorem WF_stumpiInit (Traw : List (Option ℚ)) (m k : ℕ) (eg : Bool)
    (hm : 1 ≤ m) (hk : 1 ≤ k) (hn : m + 1 ≤ Traw.length) :
    WF (stumpiInit Traw m k eg) := by
  have hT : (initT Traw).length = Traw.length := initT_length Traw
  have hns := nsub_init Traw m k eg
  refine ⟨hm, hk, ?_, ?_, ?_, ?_, ?_, ?_, ?_, ?_, ?_, ?_, ?_⟩
  · show m + 1 ≤ (initT Traw).length
    omega
  · show (initTfin Traw).length = (initT Traw).length
    rw [initTfin_length, hT]
  · rw [hns]
    show (slidingDot ((initT Traw).drop ((initT Traw).length - m))
      (initT Traw)).length = _
    rw [slidingDot_length, List.length_drop]
    omega
  · rw [hns]
    show ((initStats (initT Traw) (initTfin Traw) m).1).length = _
    simp [initStats, hT]
  · rw [hns]
    show ((initStats (initT Traw) (initTfin Traw) m).2).length = _
    simp [initStats, hT]
  · rw [hns]
    show ((initRows Traw m k).map Prod.fst).length = _
    rw [List.length_map, initRows, List.length_map, List.length_range, hT]
  · rw [hns]
    show ((initRows Traw m k).map Prod.snd).length = _
    rw [List.length_map, initRows, List.length_map, List.length_range, hT]
  · rw [hns]
    show (initLP2 Traw m k).length = _
    rw [initLP2, foldl_set_length, initLP1, List.length_map,
      List.length_range, hT]
  · rw [hns]
    show (initLI Traw m).length = _
    rw [initLI, List.length_map, List.length_range, hT]
  · intro r hr
    obtain ⟨pi, hpi, rfl⟩ := List.mem_map.mp hr
    obtain ⟨i, hi, rfl⟩ := List.mem_map.mp hpi
    exact seedRow_fst_length ..
  · intro r hr
    obtain ⟨pi, hpi, rfl⟩ := List.mem_map.mp hr
    obtain ⟨i, hi, rfl⟩ := List.mem_map.mp hpi
    exact seedRow_snd_length ..

theorem sortedRows_stumpiInit (Traw : List (Option ℚ)) (m k : ℕ) (eg : Bool) :
    SortedRows (stumpiInit Traw m k eg) := by
  intro r hr
  obtain ⟨pi, hpi, rfl⟩ := List.mem_map.mp hr
  obtain ⟨i, hi, rfl⟩ := List.mem_map.mp hpi
  exact rowScan_fst_sorted _ _ _ _ _ (sorted_replicate_top k)

theorem pairRows_stumpiInit (Traw : List (Option ℚ)) (m k : ℕ) (eg : Bool) :
    PairRows (stumpiInit Traw m k eg) := by
  intro i
  by_cases hi : i < (initT Traw).length - m + 1
  · show pairOK (((initRows Traw m k).map Prod.fst).getD i [])
      (((initRows Traw m k).map Prod.snd).getD i [])
    rw [initP_getD Traw m k hi, initI_getD Traw m k hi, seedRow]
    exact rowScan_pairOK _ _ _ _ _ (by simp) (pairOK_replicate k)
  · show pairOK (((initRows Traw m k).map Prod.fst).getD i [])
      (((initRows Traw m k).map Prod.snd).getD i [])
    rw [getD_ge_length [] (by
        rw [List.length_map, initRows, List.length_map, List.length_range]
        omega),
      getD_ge_length [] (by
        rw [List.length_map, initRows, List.length_map, List.length_range]
        omega)]
    exact pairOK_nil

theorem idxRange_stumpiInit (Traw : List (Option ℚ)) (m k : ℕ) (eg : Bool) :
    IdxRange (stumpiInit Traw m k eg) := by
  intro row hrow x hx
  rw [nsub_init]
  show -1 ≤ x ∧ x < ((Traw.length - m + 1 : ℕ) : ℤ) + ((0 : ℕ) : ℤ)
  obtain ⟨pi, hpi, rfl⟩ := List.mem_map.mp hrow
  obtain ⟨i, hi, rfl⟩ := List.mem_map.mp hpi
  rcases rowScan_snd_mem hx with hmem | ⟨j, hj, rfl, -⟩
  · rw [List.eq_of_mem_replicate hmem]
    constructor
    · exact le_rfl
    · push_cast; omega
  · have hj2 : j < (initT Traw).length - m + 1 :=
      List.mem_range.mp (List.mem_of_mem_filter hj)
    rw [initT_length] at hj2
    constructor
    · omega
    · push_cast; omega

theorem noDupRows_stumpiInit (Traw : List (Option ℚ)) (m k : ℕ) (eg : Bool) :
    NoDupRows (stumpiInit Traw m k eg) := by
  intro row hrow
  obtain ⟨pi, hpi, rfl⟩ := List.mem_map.mp hrow
  obtain ⟨i, hi, rfl⟩ := List.mem_map.mp hpi
  refine rowScan_noDup _ _ _ _ _ (noDup_replicate_neg1 k) ?_ ?_
  · intro x hx j hj
    rw [List.eq_of_mem_replicate hx]
    have : (0 : ℤ) ≤ (j : ℤ) := Int.natCast_nonneg _
    omega
  · refine List.Pairwise.imp ?_
      (List.Pairwise.filter _ (List.pairwise_lt_range _))
    intro a b hab
    exact_mod_cast hab

theorem exclOK_stumpiInit (Traw : List (Option ℚ)) (m k : ℕ) (eg : Bool) :
    ExclOK (stumpiInit Traw m k eg) := by
  intro i x hx hx0
  show (initE m : ℕ) < (x - ((i : ℤ) + ((0 : ℕ) : ℤ))).natAbs
  by_cases hi : i < (initT Traw).length - m + 1
  · rw [show (stumpiInit Traw m k eg).I = (initRows Traw m k).map Prod.snd
      from rfl, initI_getD Traw m k hi] at hx
    rcases rowScan_snd_mem hx with hmem | ⟨j, hj, rfl, -⟩
    · rw [List.eq_of_mem_replicate hmem] at hx0
      exact absurd hx0 (by norm_num)
    · have hcond := (List.mem_filter.mp hj).2
      rw [decide_eq_true_eq] at hcond
      have : ((j : ℤ) - ((i : ℤ) + ((0 : ℕ) : ℤ))).natAbs =
          ((i : ℤ) - (j : ℤ)).natAbs := by
        rw [show ((j : ℤ) - ((i : ℤ) + ((0 : ℕ) : ℤ))) = -((i : ℤ) - (j : ℤ))
          by push_cast; ring, Int.natAbs_neg]
      rw [this]
      exact hcond
  · rw [show (stumpiInit Traw m k eg).I = (initRows Traw m k).map Prod.snd
      from rfl, getD_ge_length [] (by
        rw [List.length_map, initRows, List.length_map, List.length_range]
        omega)] at hx
    exact absurd hx (List.not_mem_nil x)

theorem leftOK_stumpiInit (Traw : List (Option ℚ)) (m k : ℕ) (eg : Bool)
    (hk : 1 ≤ k) : LeftOK (stumpiInit Traw m k eg) := by
  intro i hi
  rw [nsub_init] at hi
  have hi' : i < (initT Traw).length - m + 1 := by rw [initT_length]; exact hi
  constructor
  · show (initLI Traw m).getD i (-1) ≤ (i : ℤ) + ((0 : ℕ) : ℤ)
    rw [initLI_getD Traw m hi']
    rcases seedLeft_cases (initT Traw) (initMV Traw m).1 (initMV Traw m).2 m
      (initE m) i ((initT Traw).length - m + 1) with h | ⟨j, hj, h⟩
    · rw [h]
      push_cast
      omega
    · rw [h]
      have hcond := (List.mem_filter.mp hj).2
      rw [decide_eq_true_eq] at hcond
      push_cast
      omega
  · show (((initRows Traw m k).map Prod.fst).getD i []).getD 0 ⊤ ≤
      (initLP2 Traw m k).getD i ⊤
    have hb : ∀ a ∈ initRecomputeIdx (initLI Traw m)
        ((initT Traw).length - m + 1), a < (initLP1 Traw m k).length := by
      intro a ha
      have := List.mem_range.mp (List.mem_of_mem_filter ha)
      rw [initLP1, List.length_map, List.length_range]
      exact this
    rw [initLP2, foldl_set_getD _ _ _ _ _ hb]
    by_cases hrec : i ∈ initRecomputeIdx (initLI Traw m)
      ((initT Traw).length - m + 1)
    · rw [if_pos hrec]
      have hge := (List.mem_filter.mp hrec).2
      rw [decide_eq_true_eq] at hge
      rcases seedLeft_cases (initT Traw) (initMV Traw m).1 (initMV Traw m).2 m
        (initE m) i ((initT Traw).length - m + 1) with h | ⟨j, hj, h⟩
      · rw [initLI_getD Traw m hi', h] at hge
        exact absurd hge (by norm_num)
      · rw [initLI_getD Traw m hi', h, Int.toNat_natCast]
        have hjcond := (List.mem_filter.mp hj).2
        rw [decide_eq_true_eq] at hjcond
        have hjrange := List.mem_range.mp (List.mem_of_mem_filter hj)
        rw [initP_getD Traw m k hi', seedRow]
        refine rowScan_row0_le_d _ _ _ _ _ (sorted_replicate_top k)
          (by rw [List.length_replicate]; omega) j ?_
        rw [List.mem_filter]
        refine ⟨List.mem_range.mpr hjrange, ?_⟩
        rw [decide_eq_true_eq]
        have : ((i : ℤ) - (j : ℤ)).natAbs = i - j := by
          omega
        omega
    · rw [if_neg hrec, initLP1, getD_map_range _ _ hi']
      split
      · exact le_rfl
      · exact le_top

theorem Inv_stumpiInit (Traw : List (Option ℚ)) (m k : ℕ) (eg : Bool)
    (hm : 1 ≤ m) (hk : 1 ≤ k) (hn : m + 1 ≤ Traw.length) :
    Inv (stumpiInit Traw m k eg) :=
  ⟨WF_stumpiInit Traw m k eg hm hk hn, sortedRows_stumpiInit Traw m k eg,
    pairRows_stumpiInit Traw m k eg, idxRange_stumpiInit Traw m k eg,
    noDupRows_stumpiInit Traw m k eg, exclOK_stumpiInit Traw m k eg,
    leftOK_stumpiInit Traw m k eg hk, fun _ => rfl⟩

/-! ### The invariants are preserved by `update` -/

theorem Inv_update (s : State) (t : Option ℚ) (h : Inv s) :
    Inv (update s t) := by
  obtain ⟨hWF, hS, hPR, hIR, hND, hEx, hL, hflag⟩ := h
  rw [update]
  split
  · rename_i heg
    exact ⟨WF_updateEgress s t hWF, sortedRows_updateEgress s t hS,
      pairRows_updateEgress s t hWF hPR, idxRange_updateEgress s t hWF hIR,
      noDupRows_updateEgress s t hWF hND hIR, exclOK_updateEgress s t hWF hEx,
      leftOK_updateEgress s t hWF hS hL,
      fun hfalse => absurd (heg.symm.trans hfalse) (by simp)⟩
  · rename_i heg
    have h0 : s.nApp = 0 := hflag (Bool.not_eq_true s.egress ▸ heg)
    exact ⟨WF_updateGrow s t hWF, sortedRows_updateGrow s t hS,
      pairRows_updateGrow s t hWF hPR, idxRange_updateGrow s t hWF hIR,
      noDupRows_updateGrow s t hWF h0 hND hIR,
      exclOK_updateGrow s t hWF h0 hEx, leftOK_updateGrow s t hWF hL,
      fun _ => h0⟩

theorem Inv_foldl (s0 : State) (ts : List (Option ℚ)) (h : Inv s0) :
    Inv (ts.foldl update s0) := by
  induction ts generalizing s0 with
  | nil => exact h
  | cons t ts ih =>
    rw [List.foldl_cons]
    exact ih _ (Inv_update s0 t h)

/-- One run of the engine: initialization followed by a sequence of update
calls. -/
def run (Traw : List (Option ℚ)) (m k : ℕ) (eg : Bool)
    (ts : List (Option ℚ)) : State :=
  ts.foldl update (stumpiInit Traw m k eg)

theorem Inv_run (Traw : List (Option ℚ)) (m k : ℕ) (eg : Bool)
    (ts : List (Option ℚ)) (hm : 1 ≤ m) (hk : 1 ≤ k)
    (hn : m + 1 ≤ Traw.length) : Inv (run Traw m k eg ts) :=
  Inv_foldl _ ts (Inv_stumpiInit Traw m k eg hm hk hn)

theorem update_egress_flag (s : State) (t : Option ℚ) :
    (update s t).egress = s.egress := by
  rw [update]
  split <;> rfl

theorem update_m (s : State) (t : Option ℚ) : (update s t).m = s.m := by
  rw [update]
  split <;> rfl

theorem update_k (s : State) (t : Option ℚ) : (update s t).k = s.k := by
  rw [update]
  split <;> rfl

theorem update_T_length (s : State) (t : Option ℚ) :
    (update s t).T.length =
      if s.egress then s.T.length else s.T.length + 1 := by
  rw [update]
  split
  · show ((shiftL s.T).set _ _).length = _
    rw [List.length_set, shiftL_length]
  · show (s.T ++ [t.getD 0]).length = _
    simp

theorem foldl_T_length (s0 : State) (ts : List (Option ℚ)) :
    (ts.foldl update s0).T.length =
      if s0.egress then s0.T.length else s0.T.length + ts.length := by
  induction ts generalizing s0 with
  | nil => split <;> simp
  | cons t ts ih =>
    rw [List.foldl_cons, ih, update_egress_flag, update_T_length]
    by_cases heg : s0.egress
    · simp [heg]
    · simp only [heg, if_false, Bool.false_eq_true, List.length_cons]
      omega

theorem foldl_egress_flag (s0 : State) (ts : List (Option ℚ)) :
    (ts.foldl update s0).egress = s0.egress := by
  induction ts generalizing s0 with
  | nil => rfl
  | cons t ts ih =>
    rw [List.foldl_cons, ih, update_egress_flag]

theorem foldl_m (s0 : State) (ts : List (Option ℚ)) :
    (ts.foldl update s0).m = s0.m := by
  induction ts generalizing s0 with
  | nil => rfl
  | cons t ts ih =>
    rw [List.foldl_cons, ih, update_m]

theorem update_exclZone (s : State) (t : Option ℚ) :
    (update s t).exclZone = s.exclZone := by
  rw [update]
  split <;> rfl

theorem foldl_exclZone (s0 : State) (ts : List (Option ℚ)) :
    (ts.foldl update s0).exclZone = s0.exclZone := by
  induction ts generalizing s0 with
  | nil => rfl
  | cons t ts ih =>
    rw [List.foldl_cons, ih, update_exclZone]

/-! ### Helpers for the degenerate-input claim -/

theorem rowUpdate_top (pr : List Dist) (ir : List ℤ) (g : ℤ) :
    rowUpdate pr ir ⊤ g = (pr, ir) := by
  unfold rowUpdate
  rw [if_neg not_top_lt]

theorem rowScan_top_id {β : Type} (dOf : β → Dist) (gOf : β → ℤ)
    (xs : List β) (pr : List Dist) (ir : List ℤ)
    (h : ∀ b ∈ xs, dOf b = ⊤) : rowScan dOf gOf xs pr ir = (pr, ir) := by
  induction xs generalizing pr ir with
  | nil => rfl
  | cons b bs ih =>
    rw [rowScan_cons, h b (List.mem_cons_self ..), rowUpdate_top]
    exact ih pr ir (fun b' hb' => h b' (List.mem_cons_of_mem _ hb'))

theorem applyExclZone_all_top {D : List Dist} (h : ∀ x ∈ D, x = ⊤)
    (idx excl : ℕ) : ∀ x ∈ applyExclZone D idx excl, x = ⊤ := by
  intro x hx
  obtain ⟨i, hi⟩ := List.mem_iff_getElem?.mp hx
  rw [applyExclZone, List.getElem?_mapIdx] at hi
  cases hD : D[i]? with
  | none => rw [hD] at hi; simp at hi
  | some d =>
    rw [hD] at hi
    have hd : d = ⊤ := h d (List.mem_iff_getElem?.mpr ⟨i, hD⟩)
    simp only [Option.map_some'] at hi
    have hx2 := Option.some.inj hi
    rw [← hx2, hd]
    split <;> rfl

/-! ### Concrete states used by counterexamples and witnesses -/

attribute [local semireducible] Rat.add Rat.mul Rat.inv Rat.sub

/-- A freshly initialized egress-mode state on `[1, 2, 3, 4]`, `m = 2`,
`k = 1`. -/
def exA : State := stumpiInit (([1, 2, 3, 4] : List ℚ).map some) 2 1 true

/-- Egress mode on `[1, 2, 4, 8]`, `m = 2`, after three update calls. -/
def exB : State :=
  run (([1, 2, 4, 8] : List ℚ).map some) 2 1 true [some 16, some 32, some 64]

/-- Egress mode on `[1, 2, 4, 8, 16, 32]`, `m = 3`, after two update calls. -/
def exC : State :=
  run (([1, 2, 4, 8, 16, 32] : List ℚ).map some) 3 1 true
    [some 64, some 128]

/-- Non-egress mode on `[1, 2, 3, 4]`, `m = 2`. -/
def exG : State := stumpiInit (([1, 2, 3, 4] : List ℚ).map some) 2 1 false

/-! ### The claims -/

/-- C5: In the ranked top-k insertion performed by update, a candidate
distance of exactly `+∞` never displaces an existing entry — insertion
happens only under a strict less-than comparison against the row's current
worst entry — and a candidate equal in distance to existing entries is
placed after all equal entries: the `side="right"` binary-search point has
every entry at a smaller rank `≤ d` (so every entry equal to `d` sits before
the insertion point, and the last-inserted equal value wins the rank) and
every entry at the insertion point onward `> d`. -/
theorem C5_theorem (pr : List Dist) (ir : List ℤ) (g : ℤ)
    (hs : pr.Sorted (· ≤ ·)) :
    rowUpdate pr ir ⊤ g = (pr, ir) ∧
    (∀ d : Dist, ¬ d < lastSlot pr → rowUpdate pr ir d g = (pr, ir)) ∧
    (∀ d : Dist,
      (∀ x ∈ pr.take (searchsortedRight pr d), x ≤ d) ∧
      (∀ x ∈ pr.drop (searchsortedRight pr d), d < x)) := by
  refine ⟨rowUpdate_top pr ir g, ?_, ?_⟩
  · intro d hd
    unfold rowUpdate
    rw [if_neg hd]
  · intro d
    exact sorted_take_drop_countP pr d hs

/-- C5 witness: the statement instantiated at the sorted row `[1, 2]` with
index row `[0, 3]` and candidate index `9`. -/
theorem C5_witness :
    rowUpdate [((1 : ℚ) : Dist), ((2 : ℚ) : Dist)] [0, 3] ⊤ 9 =
      ([((1 : ℚ) : Dist), ((2 : ℚ) : Dist)], [0, 3]) ∧
    (∀ d : Dist,
      ¬ d < lastSlot [((1 : ℚ) : Dist), ((2 : ℚ) : Dist)] →
      rowUpdate [((1 : ℚ) : Dist), ((2 : ℚ) : Dist)] [0, 3] d 9 =
        ([((1 : ℚ) : Dist), ((2 : ℚ) : Dist)], [0, 3])) ∧
    (∀ d : Dist,
      (∀ x ∈ List.take
        (searchsortedRight [((1 : ℚ) : Dist), ((2 : ℚ) : Dist)] d)
        [((1 : ℚ) : Dist), ((2 : ℚ) : Dist)], x ≤ d) ∧
      (∀ x ∈ List.drop
        (searchsortedRight [((1 : ℚ) : Dist), ((2 : ℚ) : Dist)] d)
        [((1 : ℚ) : Dist), ((2 : ℚ) : Dist)], d < x)) :=
  C5_theorem [((1 : ℚ) : Dist), ((2 : ℚ) : Dist)] [0, 3] 9 (by decide)

/-- C6: when an existing subsequence gains the newest window as a ranked
neighbor, the only index that can newly appear in its top-k index row is, in
egress mode, the newest window's global series-length-relative index
`(nsub - 1) + n_appended` (with `n_appended` already incremented for this
step), and, in non-egress mode, the pre-growth number of subsequences
`l = n - m + 1`. -/
theorem C6_theorem (s : State) (t : Option ℚ) (hWF : WF s) :
    (∀ i, i < nsub s - 1 → ∀ x ∈ (updateEgress s t).I.getD i [],
      x ∈ (shiftL s.I).getD i [] ∨
      x = ((nsub s : ℤ) - 1) + ((s.nApp : ℤ) + 1)) ∧
    (∀ i, i < nsub s → ∀ x ∈ (updateGrow s t).I.getD i [],
      x ∈ s.I.getD i [] ∨ x = ((s.T.length - s.m + 1 : ℕ) : ℤ)) := by
  obtain ⟨hm, hk, hn, hTfin, hQT, hM, hV, hP, hI, hlP, hlI, hPk, hIk⟩ := hWF
  have hnsv : nsub s = s.T.length - s.m + 1 := rfl
  constructor
  · intro i hi x hx
    rw [egressI_getD s t (by omega) (by omega)] at hx
    rcases rowUpdate_snd_mem hx with hmem | ⟨rfl, -⟩
    · exact Or.inl hmem
    · right
      rw [egressG_eq]
      ring
  · intro i hi x hx
    rw [growI_getD s t (by omega)] at hx
    rcases rowUpdate_snd_mem hx with hmem | ⟨rfl, -⟩
    · exact Or.inl hmem
    · exact Or.inr rfl

/-- C6 witness: the statement instantiated at the concrete egress state
`exA` ingesting `5`. -/
theorem C6_witness :
    (∀ i, i < nsub exA - 1 → ∀ x ∈ (updateEgress exA (some 5)).I.getD i [],
      x ∈ (shiftL exA.I).getD i [] ∨
      x = ((nsub exA : ℤ) - 1) + ((exA.nApp : ℤ) + 1)) ∧
    (∀ i, i < nsub exA → ∀ x ∈ (updateGrow exA (some 5)).I.getD i [],
      x ∈ exA.I.getD i [] ∨ x = ((exA.T.length - exA.m + 1 : ℕ) : ℤ)) :=
  C6_theorem exA (some 5) (by unfold WF nsub; decide)

/-- The egress sliding-dot-product update, written out: a direct dot product
in slot `0` and the incremental recurrence elsewhere (lines 244-245). -/
theorem egressQTnew_eq (s : State) (t : Option ℚ) :
    egressQTnew s t =
      dot ((egressTnew s t).take s.m)
          ((egressTnew s t).drop (s.T.length - s.m)) ::
        (List.range (s.T.length - s.m)).map (fun j =>
          (shiftL s.QT).getD j 0
            - (egressTnew s t).getD j 0
              * (egressTnew s t).getD (s.T.length - s.m - 1) 0
            + (egressTnew s t).getD (j + s.m) 0 * t.getD 0) := rfl

/-- C1 counterexample: the claim reads the recurrence's `t_drop` as "the
value evicted from the front of the series in this step".  On the state
seeded from `[1, 2, 3, 4]` with `m = 2`, ingesting `5`, the evicted front
value is `1`, and the recurrence evaluated with it gives
`18 - 2·1 + 4·5 = 36` for position `1`, while the code computes
`18 - 2·3 + 4·5 = 32` (which is the true dot product `[3,4]·[4,5]`): the
code's `t_drop` is `3 = T[l-1]`, the value sliding out of the front of the
dot-product window, not the evicted series-front value. -/
theorem C1_counterexample :
    (updateEgress exA (some 5)).QT.getD 1 0 ≠
      (shiftL exA.QT).getD 0 0
        - (updateEgress exA (some 5)).T.getD 0 0 * exA.T.getD 0 0
        + (updateEgress exA (some 5)).T.getD 2 0 * 5 := by
  decide

/-- C1 (amended): in the egress update the new sliding dot product satisfies
`QT_new[0] = T[:m]·T[l:]` (a direct dot product of the first window against
the newest window) and, for every interior `1 ≤ j ≤ l`,
`QT_new[j] = QT[j-1] - T[j-1]·t_drop + T[j-1+m]·t`, where `QT` and `T` are
the shifted arrays and `t_drop = T[l-1]` is the value that slides out of the
front of the dot-product window (the element of the updated series
immediately before the newest window), **not** the value evicted from the
front of the series. -/
theorem C1_theorem (s : State) (t : Option ℚ) (j : ℕ) (h1 : 1 ≤ j)
    (h2 : j ≤ s.T.length - s.m) :
    (updateEgress s t).QT.getD 0 0 =
      dot ((updateEgress s t).T.take s.m)
        ((updateEgress s t).T.drop (s.T.length - s.m)) ∧
    (updateEgress s t).QT.getD j 0 =
      (shiftL s.QT).getD (j - 1) 0
        - (updateEgress s t).T.getD (j - 1) 0
          * (updateEgress s t).T.getD (s.T.length - s.m - 1) 0
        + (updateEgress s t).T.getD (j - 1 + s.m) 0 * t.getD 0 := by
  have hQT : (updateEgress s t).QT = egressQTnew s t := rfl
  have hT : (updateEgress s t).T = egressTnew s t := rfl
  rw [hQT, hT, egressQTnew_eq]
  constructor
  · rw [List.getD_cons_zero]
  · obtain ⟨j', rfl⟩ : ∃ j', j = j' + 1 := ⟨j - 1, by omega⟩
    rw [List.getD_cons_succ, getD_map_range _ _ (by omega)]
    simp only [Nat.add_sub_cancel]

/-- C1 witness: the amended recurrence instantiated at the concrete egress
state `exA` ingesting `5`, position `j = 1`. -/
theorem C1_witness :
    (1 ≤ exA.T.length - exA.m) ∧
    ((updateEgress exA (some 5)).QT.getD 0 0 =
      dot ((updateEgress exA (some 5)).T.take exA.m)
        ((updateEgress exA (some 5)).T.drop (exA.T.length - exA.m)) ∧
    (updateEgress exA (some 5)).QT.getD 1 0 =
      (shiftL exA.QT).getD (1 - 1) 0
        - (updateEgress exA (some 5)).T.getD (1 - 1) 0
          * (updateEgress exA (some 5)).T.getD (exA.T.length - exA.m - 1) 0
        + (updateEgress exA (some 5)).T.getD (1 - 1 + exA.m) 0
          * (some (5 : ℚ)).getD 0) :=
  ⟨by decide, C1_theorem exA (some 5) 1 le_rfl (by decide)⟩

/-- C2: the source's own comment (lines 153-154) and the spec say the
explicit left-profile recomputation runs exactly over the subsequences whose
left index differs from the top-1 index; but line 155's expression
`np.flatnonzero(self._left_I >= 0 & ~mask)` parses, by Python operator
precedence, as `left_I >= (0 & ~mask)` = `left_I >= 0`.  On the seed
`[1, 2, 3, 4]`, `m = 2`, `k = 1`: the code's loop index set is `[2]`
although subsequence `2` has `left_I[2] = I[2][0]` (both `0`) and the
claimed index set is empty — the code recomputes a subsequence the claim
says must receive the already-known top-1 distance instead. -/
theorem C2_theorem :
    initRecomputeIdx (initLI (([1, 2, 3, 4] : List ℚ).map some) 2) 3 = [2] ∧
    claimRecomputeIdx (initLI (([1, 2, 3, 4] : List ℚ).map some) 2)
      ((initRows (([1, 2, 3, 4] : List ℚ).map some) 2 1).map Prod.snd) 3 =
      [] ∧
    (initLI (([1, 2, 3, 4] : List ℚ).map some) 2).getD 2 (-1) =
      (((initRows (([1, 2, 3, 4] : List ℚ).map some) 2 1).map
        Prod.snd).getD 2 []).getD 0 (-1) := by
  decide

/-- C3 counterexample: reading "no stored top-k neighbor index for position
`i` lies within `e` positions of `i` itself" literally on the stored values:
in egress mode the stored indices are global (adjusted by `n_appended`)
while the rows keep sliding, so after two egress updates of the state seeded
from `[1, 2, 4, 8, 16, 32]` with `m = 3`, row `3` stores the neighbor index
`2` with `|2 - 3| = 1 ≤ e = 1`. -/
theorem C3_counterexample :
    0 ≤ (exC.I.getD 3 []).getD 0 (-1) ∧
    ((exC.I.getD 3 []).getD 0 (-1) - (3 : ℤ)).natAbs ≤ exC.exclZone := by
  decide

/-- C3 (amended): after initialization and any number of update calls, no
stored top-k neighbor index lies within `e = ⌈m/4⌉` positions of the storing
subsequence's *global* position `i + n_appended` (in non-egress mode
`n_appended` stays `0`, giving the claim's literal local form). -/
theorem C3_theorem (Traw : List (Option ℚ)) (m k : ℕ) (eg : Bool)
    (ts : List (Option ℚ)) (hm : 1 ≤ m) (hk : 1 ≤ k)
    (hn : m + 1 ≤ Traw.length) :
    ExclOK (run Traw m k eg ts) ∧
    (run Traw m k eg ts).exclZone = (m + 3) / 4 := by
  refine ⟨(Inv_run Traw m k eg ts hm hk hn).2.2.2.2.2.1, ?_⟩
  rw [run, foldl_exclZone]
  rfl

/-- C3 witness: the amended exclusion-zone invariant instantiated at the
concrete run `exC`. -/
theorem C3_witness :
    ExclOK (run (([1, 2, 4, 8, 16, 32] : List ℚ).map some) 3 1 true
      [some 64, some 128]) ∧
    (run (([1, 2, 4, 8, 16, 32] : List ℚ).map some) 3 1 true
      [some 64, some 128]).exclZone = (3 + 3) / 4 :=
  C3_theorem (([1, 2, 4, 8, 16, 32] : List ℚ).map some) 3 1 true
    [some 64, some 128] (by decide) (by decide) (by decide)

/-- C4: after initialization and any number of update calls, every row of
the top-k table `P` is sorted non-decreasing, every `+∞` slot of `P` has
`-1` in the aligned slot of `I`, and no row of `I` stores the same
(non-`-1`) neighbor position twice. -/
theorem C4_theorem (Traw : List (Option ℚ)) (m k : ℕ) (eg : Bool)
    (ts : List (Option ℚ)) (hm : 1 ≤ m) (hk : 1 ≤ k)
    (hn : m + 1 ≤ Traw.length) :
    SortedRows (run Traw m k eg ts) ∧ PairRows (run Traw m k eg ts) ∧
    NoDupRows (run Traw m k eg ts) :=
  ⟨(Inv_run Traw m k eg ts hm hk hn).2.1,
    (Inv_run Traw m k eg ts hm hk hn).2.2.1,
    (Inv_run Traw m k eg ts hm hk hn).2.2.2.2.1⟩

/-- C4 witness: the row invariants instantiated at the concrete run `exB`. -/
theorem C4_witness :
    SortedRows (run (([1, 2, 4, 8] : List ℚ).map some) 2 1 true
      [some 16, some 32, some 64]) ∧
    PairRows (run (([1, 2, 4, 8] : List ℚ).map some) 2 1 true
      [some 16, some 32, some 64]) ∧
    NoDupRows (run (([1, 2, 4, 8] : List ℚ).map some) 2 1 true
      [some 16, some 32, some 64]) :=
  C4_theorem (([1, 2, 4, 8] : List ℚ).map some) 2 1 true
    [some 16, some 32, some 64] (by decide) (by decide) (by decide)

/-- C7 counterexample: reading "left_I[i] ≤ i" literally on the stored
values: in egress mode the stored left indices are global while the rows
keep sliding, so after three egress updates of the state seeded from
`[1, 2, 4, 8]` with `m = 2`, position `2` stores `left_I[2] = 3 > 2`. -/
theorem C7_counterexample : ¬ (exB.left_I.getD 2 (-1) ≤ (2 : ℤ)) := by
  decide

/-- C7 (amended): after initialization and any number of update calls, for
every position `i` the left (causal) index satisfies
`left_I[i] ≤ i + n_appended` (the subsequence's *global* position; in
non-egress mode `n_appended` stays `0`, giving the claim's literal form),
and the left profile value satisfies `left_P[i] ≥ P[i, 0]`, the unrestricted
top-1 value at `i`. -/
theorem C7_theorem (Traw : List (Option ℚ)) (m k : ℕ) (eg : Bool)
    (ts : List (Option ℚ)) (hm : 1 ≤ m) (hk : 1 ≤ k)
    (hn : m + 1 ≤ Traw.length) :
    LeftOK (run Traw m k eg ts) :=
  (Inv_run Traw m k eg ts hm hk hn).2.2.2.2.2.2.1

/-- C7 witness: the amended causality invariant instantiated at the
concrete run `exB`. -/
theorem C7_witness :
    LeftOK (run (([1, 2, 4, 8] : List ℚ).map some) 2 1 true
      [some 16, some 32, some 64]) :=
  C7_theorem (([1, 2, 4, 8] : List ℚ).map some) 2 1 true
    [some 16, some 32, some 64] (by decide) (by decide) (by decide)

theorem getD_set_self {α : Type} (l : List α) (i : ℕ) (v d : α)
    (h : i < l.length) : (l.set i v).getD i d = v := by
  rw [List.getD_eq_getElem?_getD, List.getElem?_set, if_pos rfl, if_pos h]
  rfl

theorem getD_append_last {α : Type} (l : List α) (a d : α) :
    (l ++ [a]).getD l.length d = a := by
  rw [List.getD_eq_getElem?_getD, List.getElem?_concat_length]
  rfl

theorem egressTfin_length (s : State) (t : Option ℚ) :
    (egressTfin s t).length = s.Tfin.length := by
  show ((shiftL s.Tfin).set _ _).length = _
  rw [List.length_set, shiftL_length]

theorem growTfin_length (s : State) (t : Option ℚ) :
    (growTfin s t).length = s.Tfin.length + 1 := by
  show (s.Tfin ++ [t.isSome]).length = _
  simp

theorem egressD_all_top (s : State) (t : Option ℚ)
    (hcond : ((egressTfin s t).drop (s.Tfin.length - s.m)).any
      (fun b => !b) = true) : ∀ d ∈ egressD s t, d = ⊤ := by
  intro d hd
  simp only [egressD, hcond, if_true] at hd
  refine applyExclZone_all_top ?_ _ _ d hd
  intro x hx
  obtain ⟨y, -, rfl⟩ := List.mem_map.mp hx
  rfl

theorem growD_all_top (s : State) (t : Option ℚ)
    (hcond : ((growTfin s t).drop ((growTfin s t).length - s.m)).any
      (fun b => !b) = true) : ∀ d ∈ growD s t, d = ⊤ := by
  intro d hd
  simp only [growD, hcond, if_true] at hd
  refine applyExclZone_all_top ?_ _ _ d hd
  intro x hx
  obtain ⟨y, -, rfl⟩ := List.mem_map.mp hx
  rfl

theorem egressStats_sentinel (s : State) (t : Option ℚ)
    (hcond : ((egressTfin s t).drop (s.Tfin.length - s.m)).any
      (fun b => !b) = true) : egressStats s t = (⊤, none) := by
  rw [egressStats, newestStats, if_pos hcond]

theorem growStats_sentinel (s : State) (t : Option ℚ)
    (hcond : ((growTfin s t).drop ((growTfin s t).length - s.m)).any
      (fun b => !b) = true) : growStats s t = (⊤, none) := by
  rw [growStats, newestStats, if_pos hcond]

theorem egressLast_sentinel (s : State) (t : Option ℚ)
    (hcond : ((egressTfin s t).drop (s.Tfin.length - s.m)).any
      (fun b => !b) = true) :
    egressLast s t = (List.replicate s.k ⊤, List.replicate s.k (-1)) := by
  rw [egressLast]
  refine rowScan_top_id _ _ _ _ _ ?_
  intro b hb
  exact egressD_all_top s t hcond b.2
    (List.mem_iff_getElem?.mpr ⟨b.1, (mem_enum_spec hb).2⟩)

theorem growLast_sentinel (s : State) (t : Option ℚ)
    (hcond : ((growTfin s t).drop ((growTfin s t).length - s.m)).any
      (fun b => !b) = true) :
    growLast s t = (List.replicate s.k ⊤, List.replicate s.k (-1)) := by
  rw [growLast]
  refine rowScan_top_id _ _ _ _ _ ?_
  intro b hb
  exact growD_all_top s t hcond b.2
    (List.mem_iff_getElem?.mpr ⟨b.1, (mem_enum_spec hb).2⟩)

/-- C8: starting from initialization, under egress mode the stored series
buffer and every per-position and per-subsequence array keep their length
unchanged across any number of update calls; under non-egress mode each
array grows by exactly one element/row per call. -/
theorem C8_theorem (Traw : List (Option ℚ)) (m k : ℕ) (eg : Bool)
    (ts : List (Option ℚ)) (hm : 1 ≤ m) (hk : 1 ≤ k)
    (hn : m + 1 ≤ Traw.length) :
    (eg = true →
      (run Traw m k eg ts).T.length = (stumpiInit Traw m k eg).T.length ∧
      (run Traw m k eg ts).Tfin.length =
        (stumpiInit Traw m k eg).Tfin.length ∧
      (run Traw m k eg ts).QT.length = (stumpiInit Traw m k eg).QT.length ∧
      (run Traw m k eg ts).M_T.length =
        (stumpiInit Traw m k eg).M_T.length ∧
      (run Traw m k eg ts).V_T.length =
        (stumpiInit Traw m k eg).V_T.length ∧
      (run Traw m k eg ts).P.length = (stumpiInit Traw m k eg).P.length ∧
      (run Traw m k eg ts).I.length = (stumpiInit Traw m k eg).I.length ∧
      (run Traw m k eg ts).left_P.length =
        (stumpiInit Traw m k eg).left_P.length ∧
      (run Traw m k eg ts).left_I.length =
        (stumpiInit Traw m k eg).left_I.length) ∧
    (eg = false →
      (run Traw m k eg ts).T.length =
        (stumpiInit Traw m k eg).T.length + ts.length ∧
      (run Traw m k eg ts).Tfin.length =
        (stumpiInit Traw m k eg).Tfin.length + ts.length ∧
      (run Traw m k eg ts).QT.length =
        (stumpiInit Traw m k eg).QT.length + ts.length ∧
      (run Traw m k eg ts).M_T.length =
        (stumpiInit Traw m k eg).M_T.length + ts.length ∧
      (run Traw m k eg ts).V_T.length =
        (stumpiInit Traw m k eg).V_T.length + ts.length ∧
      (run Traw m k eg ts).P.length =
        (stumpiInit Traw m k eg).P.length + ts.length ∧
      (run Traw m k eg ts).I.length =
        (stumpiInit Traw m k eg).I.length + ts.length ∧
      (run Traw m k eg ts).left_P.length =
        (stumpiInit Traw m k eg).left_P.length + ts.length ∧
      (run Traw m k eg ts).left_I.length =
        (stumpiInit Traw m k eg).left_I.length + ts.length) := by
  obtain ⟨hWFf, -⟩ := Inv_run Traw m k eg ts hm hk hn
  obtain ⟨-, -, hnf', hTfinF, hQTf, hMf, hVf, hPf, hIf, hlPf, hlIf, -, -⟩ :=
    hWFf
  obtain ⟨-, -, -, hTfin0, hQT0, hM0, hV0, hP0, hI0, hlP0, hlI0, -, -⟩ :=
    WF_stumpiInit Traw m k eg hm hk hn
  have hmf : (run Traw m k eg ts).m = m := by
    rw [run, foldl_m]
    rfl
  have hT0 : (stumpiInit Traw m k eg).T.length = Traw.length :=
    initT_length Traw
  have hTf : (run Traw m k eg ts).T.length =
      if eg then Traw.length else Traw.length + ts.length := by
    rw [run, foldl_T_length]
    have h1 : (stumpiInit Traw m k eg).egress = eg := rfl
    rw [h1, hT0]
  have hn0 : nsub (stumpiInit Traw m k eg) = Traw.length - m + 1 :=
    nsub_init Traw m k eg
  constructor
  · intro heg
    subst heg
    rw [if_pos rfl] at hTf
    have hnf : nsub (run Traw m k true ts) = Traw.length - m + 1 := by
      unfold nsub
      rw [hTf, hmf]
    refine ⟨by rw [hTf, hT0], by rw [hTfinF, hTfin0, hTf, hT0],
      by rw [hQTf, hQT0, hnf, hn0], by rw [hMf, hM0, hnf, hn0],
      by rw [hVf, hV0, hnf, hn0], by rw [hPf, hP0, hnf, hn0],
      by rw [hIf, hI0, hnf, hn0], by rw [hlPf, hlP0, hnf, hn0],
      by rw [hlIf, hlI0, hnf, hn0]⟩
  · intro heg
    subst heg
    rw [if_neg (by simp)] at hTf
    have hnf : nsub (run Traw m k false ts) =
        Traw.length + ts.length - m + 1 := by
      unfold nsub
      rw [hTf, hmf]
    refine ⟨by rw [hTf, hT0], by rw [hTfinF, hTfin0, hTf, hT0],
      by rw [hQTf, hQT0, hnf, hn0]; omega, by rw [hMf, hM0, hnf, hn0]; omega,
      by rw [hVf, hV0, hnf, hn0]; omega, by rw [hPf, hP0, hnf, hn0]; omega,
      by rw [hIf, hI0, hnf, hn0]; omega, by rw [hlPf, hlP0, hnf, hn0]; omega,
      by rw [hlIf, hlI0, hnf, hn0]; omega⟩

/-- C8 witness: the egress-mode invariant at the concrete run `exB` and the
non-egress growth at a concrete two-update run on the same seed. -/
theorem C8_witness :
    ((true = true →
      (run (([1, 2, 4, 8] : List ℚ).map some) 2 1 true
        [some 16, some 32]).T.length =
        (stumpiInit (([1, 2, 4, 8] : List ℚ).map some) 2 1 true).T.length ∧
      (run (([1, 2, 4, 8] : List ℚ).map some) 2 1 true
        [some 16, some 32]).Tfin.length =
        (stumpiInit (([1, 2, 4, 8] : List ℚ).map some) 2 1 true).Tfin.length ∧
      (run (([1, 2, 4, 8] : List ℚ).map some) 2 1 true
        [some 16, some 32]).QT.length =
        (stumpiInit (([1, 2, 4, 8] : List ℚ).map some) 2 1 true).QT.length ∧
      (run (([1, 2, 4, 8] : List ℚ).map some) 2 1 true
        [some 16, some 32]).M_T.length =
        (stumpiInit (([1, 2, 4, 8] : List ℚ).map some) 2 1 true).M_T.length ∧
      (run (([1, 2, 4, 8] : List ℚ).map some) 2 1 true
        [some 16, some 32]).V_T.length =
        (stumpiInit (([1, 2, 4, 8] : List ℚ).map some) 2 1 true).V_T.length ∧
      (run (([1, 2, 4, 8] : List ℚ).map some) 2 1 true
        [some 16, some 32]).P.length =
        (stumpiInit (([1, 2, 4, 8] : List ℚ).map some) 2 1 true).P.length ∧
      (run (([1, 2, 4, 8] : List ℚ).map some) 2 1 true
        [some 16, some 32]).I.length =
        (stumpiInit (([1, 2, 4, 8] : List ℚ).map some) 2 1 true).I.length ∧
      (run (([1, 2, 4, 8] : List ℚ).map some) 2 1 true
        [some 16, some 32]).left_P.length =
        (stumpiInit (([1, 2, 4, 8] : List ℚ).map some) 2 1
          true).left_P.length ∧
      (run (([1, 2, 4, 8] : List ℚ).map some) 2 1 true
        [some 16, some 32]).left_I.length =
        (stumpiInit (([1, 2, 4, 8] : List ℚ).map some) 2 1
          true).left_I.length) ∧
    (true = false →
      (run (([1, 2, 4, 8] : List ℚ).map some) 2 1 true
        [some 16, some 32]).T.length =
        (stumpiInit (([1, 2, 4, 8] : List ℚ).map some) 2 1 true).T.length +
          [some (16 : ℚ), some 32].length ∧
      (run (([1, 2, 4, 8] : List ℚ).map some) 2 1 true
        [some 16, some 32]).Tfin.length =
        (stumpiInit (([1, 2, 4, 8] : List ℚ).map some) 2 1
          true).Tfin.length + [some (16 : ℚ), some 32].length ∧
      (run (([1, 2, 4, 8] : List ℚ).map some) 2 1 true
        [some 16, some 32]).QT.length =
        (stumpiInit (([1, 2, 4, 8] : List ℚ).map some) 2 1 true).QT.length +
          [some (16 : ℚ), some 32].length ∧
      (run (([1, 2, 4, 8] : List ℚ).map some) 2 1 true
        [some 16, some 32]).M_T.length =
        (stumpiInit (([1, 2, 4, 8] : List ℚ).map some) 2 1 true).M_T.length +
          [some (16 : ℚ), some 32].length ∧
      (run (([1, 2, 4, 8] : List ℚ).map some) 2 1 true
        [some 16, some 32]).V_T.length =
        (stumpiInit (([1, 2, 4, 8] : List ℚ).map some) 2 1 true).V_T.length +
          [some (16 : ℚ), some 32].length ∧
      (run (([1, 2, 4, 8] : List ℚ).map some) 2 1 true
        [some 16, some 32]).P.length =
        (stumpiInit (([1, 2, 4, 8] : List ℚ).map some) 2 1 true).P.length +
          [some (16 : ℚ), some 32].length ∧
      (run (([1, 2, 4, 8] : List ℚ).map some) 2 1 true
        [some 16, some 32]).I.length =
        (stumpiInit (([1, 2, 4, 8] : List ℚ).map some) 2 1 true).I.length +
          [some (16 : ℚ), some 32].length ∧
      (run (([1, 2, 4, 8] : List ℚ).map some) 2 1 true
        [some 16, some 32]).left_P.length =
        (stumpiInit (([1, 2, 4, 8] : List ℚ).map some) 2 1
          true).left_P.length + [some (16 : ℚ), some 32].length ∧
      (run (([1, 2, 4, 8] : List ℚ).map some) 2 1 true
        [some 16, some 32]).left_I.length =
        (stumpiInit (([1, 2, 4, 8] : List ℚ).map some) 2 1
          true).left_I.length + [some (16 : ℚ), some 32].length)) :=
  C8_theorem (([1, 2, 4, 8] : List ℚ).map some) 2 1 true [some 16, some 32]
    (by decide) (by decide) (by decide)

/-- C10: in non-egress mode, an update call leaves every pre-existing
element of the series buffer `T`, the finiteness mask, the left profile
arrays and the statistics arrays unchanged — each is purely appended to
(its old content is exactly the new content minus the last element, and its
length grows by one).  Among per-subsequence state, only rows of the top-k
tables `P` and `I` are rewritten. -/
theorem C10_theorem (s : State) (t : Option ℚ) (heg : s.egress = false) :
    (update s t).T.dropLast = s.T ∧
    (update s t).Tfin.dropLast = s.Tfin ∧
    (update s t).left_P.dropLast = s.left_P ∧
    (update s t).left_I.dropLast = s.left_I ∧
    (update s t).M_T.dropLast = s.M_T ∧
    (update s t).V_T.dropLast = s.V_T ∧
    (update s t).T.length = s.T.length + 1 ∧
    (update s t).Tfin.length = s.Tfin.length + 1 ∧
    (update s t).left_P.length = s.left_P.length + 1 ∧
    (update s t).left_I.length = s.left_I.length + 1 ∧
    (update s t).M_T.length = s.M_T.length + 1 ∧
    (update s t).V_T.length = s.V_T.length + 1 := by
  rw [update, if_neg (by rw [heg]; simp)]
  refine ⟨List.dropLast_concat, List.dropLast_concat, List.dropLast_concat,
    List.dropLast_concat, List.dropLast_concat, List.dropLast_concat,
    ?_, ?_, ?_, ?_, ?_, ?_⟩
  · show (s.T ++ [t.getD 0]).length = _
    simp
  · show (s.Tfin ++ [t.isSome]).length = _
    simp
  · show (s.left_P ++ [(growLast s t).1.getD 0 ⊤]).length = _
    simp
  · show (s.left_I ++ [(growLast s t).2.getD 0 (-1)]).length = _
    simp
  · show (s.M_T ++ [(growStats s t).1]).length = _
    simp
  · show (s.V_T ++ [(growStats s t).2]).length = _
    simp

/-- C9: `update(t)` accepts any scalar and always completes (the model of
both update paths is a total function); a non-finite `t` (modelled `none`)
is stored as `0` with its finiteness recorded as `false`, and it taints the
newest window; whenever the newest window contains any non-finite point,
its statistics are the sentinel pair (`μ = +∞` i.e. `⊤`, `σ = NaN` i.e.
`none`), its distance profile is forced entirely to `+∞`, and the
degeneracy surfaces only as `+∞` distances and `-1` indices in the newest
row and its left profile — never as an error. -/
theorem C9_theorem (s : State) (t : Option ℚ) (hWF : WF s) :
    (t = none →
      (update s t).T.getD ((update s t).T.length - 1) 1 = 0 ∧
      (update s t).Tfin.getD ((update s t).Tfin.length - 1) true = false ∧
      ((update s t).Tfin.drop ((update s t).Tfin.length - s.m)).any
        (fun b => !b) = true) ∧
    (((update s t).Tfin.drop ((update s t).Tfin.length - s.m)).any
        (fun b => !b) = true →
      (update s t).M_T.getD (nsub (update s t) - 1) (some 0) = ⊤ ∧
      (update s t).V_T.getD (nsub (update s t) - 1) (some 0) = none ∧
      (s.egress = true → ∀ d ∈ egressD s t, d = ⊤) ∧
      (s.egress = false → ∀ d ∈ growD s t, d = ⊤) ∧
      (update s t).P.getD (nsub (update s t) - 1) [] =
        List.replicate s.k ⊤ ∧
      (update s t).I.getD (nsub (update s t) - 1) [] =
        List.replicate s.k (-1) ∧
      (update s t).left_P.getD (nsub (update s t) - 1) (some 0) = ⊤ ∧
      (update s t).left_I.getD (nsub (update s t) - 1) 0 = -1) := by
  obtain ⟨hm, hk, hn, hTfin, hQT, hM, hV, hP, hI, hlP, hlI, hPk, hIk⟩ := hWF
  have hnsv : nsub s = s.T.length - s.m + 1 := rfl
  by_cases heg : s.egress = true
  · rw [update, if_pos heg]
    constructor
    · intro ht
      subst ht
      refine ⟨?_, ?_, ?_⟩
      · have hlen : (egressTnew s none).length = s.T.length := by
          show ((shiftL s.T).set _ _).length = _
          rw [List.length_set, shiftL_length]
        show (egressTnew s none).getD ((egressTnew s none).length - 1) 1 = 0
        rw [hlen]
        show ((shiftL s.T).set (s.T.length - 1)
          ((none : Option ℚ).getD 0)).getD (s.T.length - 1) 1 = 0
        rw [getD_set_self _ _ _ _ (by rw [shiftL_length]; omega)]
        rfl
      · show (egressTfin s none).getD
          ((egressTfin s none).length - 1) true = false
        rw [egressTfin_length]
        show ((shiftL s.Tfin).set (s.Tfin.length - 1)
          (none : Option ℚ).isSome).getD (s.Tfin.length - 1) true = false
        rw [getD_set_self _ _ _ _ (by rw [shiftL_length]; omega)]
        rfl
      · show ((egressTfin s none).drop
          ((egressTfin s none).length - s.m)).any (fun b => !b) = true
        rw [egressTfin_length, List.any_eq_true]
        refine ⟨false, ?_, rfl⟩
        rw [List.mem_iff_getElem?]
        refine ⟨s.m - 1, ?_⟩
        rw [List.getElem?_drop]
        show ((shiftL s.Tfin).set (s.Tfin.length - 1)
          (none : Option ℚ).isSome)[s.Tfin.length - s.m + (s.m - 1)]? =
          some false
        rw [List.getElem?_set, if_pos (by omega),
          if_pos (by rw [shiftL_length]; omega)]
        rfl
    · intro htaint
      have hcond : ((egressTfin s t).drop (s.Tfin.length - s.m)).any
          (fun b => !b) = true := by
        have h1 : (updateEgress s t).Tfin = egressTfin s t := rfl
        rw [h1, egressTfin_length] at htaint
        exact htaint
      have hstats := egressStats_sentinel s t hcond
      have hlast := egressLast_sentinel s t hcond
      have hnsu : nsub (updateEgress s t) = nsub s := updateEgress_nsub s t
      refine ⟨?_, ?_, fun _ => egressD_all_top s t hcond,
        fun hf => absurd (heg.symm.trans hf) (by simp), ?_, ?_, ?_, ?_⟩
      · rw [hnsu]
        show ((shiftL s.M_T).set (s.M_T.length - 1)
          (egressStats s t).1).getD (nsub s - 1) (some 0) = ⊤
        rw [show nsub s - 1 = s.M_T.length - 1 by omega,
          getD_set_self _ _ _ _ (by rw [shiftL_length]; omega), hstats]
      · rw [hnsu]
        show ((shiftL s.V_T).set (s.V_T.length - 1)
          (egressStats s t).2).getD (nsub s - 1) (some 0) = none
        rw [show nsub s - 1 = s.V_T.length - 1 by omega,
          getD_set_self _ _ _ _ (by rw [shiftL_length]; omega), hstats]
      · rw [hnsu, show nsub s - 1 = s.T.length - s.m by omega,
          egressP_getD_last s t (by rw [hP]; omega), hlast]
      · rw [hnsu, show nsub s - 1 = s.T.length - s.m by omega,
          egressI_getD_last s t (by rw [hP]; omega), hlast]
      · rw [hnsu, show nsub s - 1 = s.T.length - s.m by omega]
        show ((shiftL s.left_P).set (s.T.length - s.m)
          ((egressLast s t).1.getD 0 ⊤)).getD (s.T.length - s.m)
          (some 0) = ⊤
        rw [getD_set_self _ _ _ _ (by rw [shiftL_length, hlP]; omega), hlast]
        exact getD_replicate_self ..
      · rw [hnsu, show nsub s - 1 = s.T.length - s.m by omega]
        show ((shiftL s.left_I).set (s.T.length - s.m)
          ((egressLast s t).2.getD 0 (-1))).getD (s.T.length - s.m) 0 = -1
        rw [getD_set_self _ _ _ _ (by rw [shiftL_length, hlI]; omega), hlast]
        exact getD_replicate_self ..
  · rw [update, if_neg heg]
    constructor
    · intro ht
      subst ht
      refine ⟨?_, ?_, ?_⟩
      · show (s.T ++ [(none : Option ℚ).getD 0]).getD
          ((s.T ++ [(none : Option ℚ).getD 0]).length - 1) 1 = 0
        rw [List.length_append, List.length_singleton, Nat.add_sub_cancel,
          getD_append_last]
        rfl
      · show (s.Tfin ++ [(none : Option ℚ).isSome]).getD
          ((s.Tfin ++ [(none : Option ℚ).isSome]).length - 1) true = false
        rw [List.length_append, List.length_singleton, Nat.add_sub_cancel,
          getD_append_last]
        rfl
      · show ((growTfin s none).drop
          ((growTfin s none).length - s.m)).any (fun b => !b) = true
        rw [List.any_eq_true]
        refine ⟨false, ?_, rfl⟩
        rw [List.mem_iff_getElem?]
        refine ⟨s.m - 1, ?_⟩
        rw [List.getElem?_drop, growTfin_length]
        show (s.Tfin ++ [(none : Option ℚ).isSome])[s.Tfin.length + 1 -
          s.m + (s.m - 1)]? = some false
        rw [show s.Tfin.length + 1 - s.m + (s.m - 1) = s.Tfin.length
          by omega, List.getElem?_concat_length]
        rfl
    · intro htaint
      have hcond : ((growTfin s t).drop
          ((growTfin s t).length - s.m)).any (fun b => !b) = true := htaint
      have hstats := growStats_sentinel s t hcond
      have hlast := growLast_sentinel s t hcond
      have hnsu : nsub (updateGrow s t) = nsub s + 1 :=
        updateGrow_nsub s t (by omega)
      refine ⟨?_, ?_, fun hf => absurd hf heg,
        fun _ => growD_all_top s t hcond, ?_, ?_, ?_, ?_⟩
      · rw [hnsu, Nat.add_sub_cancel]
        show (s.M_T ++ [(growStats s t).1]).getD (nsub s) (some 0) = ⊤
        rw [show nsub s = s.M_T.length from hM.symm, getD_append_last,
          hstats]
      · rw [hnsu, Nat.add_sub_cancel]
        show (s.V_T ++ [(growStats s t).2]).getD (nsub s) (some 0) = none
        rw [show nsub s = s.V_T.length from hV.symm, getD_append_last,
          hstats]
      · rw [hnsu, Nat.add_sub_cancel]
        show (updateGrow s t).P.getD (s.T.length - s.m + 1) [] =
          List.replicate s.k ⊤
        rw [growP_getD_last, hlast]
      · rw [hnsu, Nat.add_sub_cancel]
        show (updateGrow s t).I.getD (s.T.length - s.m + 1) [] =
          List.replicate s.k (-1)
        rw [growI_getD_last, hlast]
      · rw [hnsu, Nat.add_sub_cancel]
        show (s.left_P ++ [(growLast s t).1.getD 0 ⊤]).getD (nsub s)
          (some 0) = ⊤
        rw [show nsub s = s.left_P.length from hlP.symm, getD_append_last,
          hlast]
        exact getD_replicate_self ..
      · rw [hnsu, Nat.add_sub_cancel]
        show (s.left_I ++ [(growLast s t).2.getD 0 (-1)]).getD (nsub s)
          0 = -1
        rw [show nsub s = s.left_I.length from hlI.symm, getD_append_last,
          hlast]
        exact getD_replicate_self ..

/-- C9 witness: the degenerate-input behavior at the concrete egress state
`exA` ingesting a non-finite point. -/
theorem C9_witness :
    ((none : Option ℚ) = none →
      (update exA none).T.getD ((update exA none).T.length - 1) 1 = 0 ∧
      (update exA none).Tfin.getD ((update exA none).Tfin.length - 1)
        true = false ∧
      ((update exA none).Tfin.drop
        ((update exA none).Tfin.length - exA.m)).any (fun b => !b) = true) ∧
    (((update exA none).Tfin.drop
        ((update exA none).Tfin.length - exA.m)).any (fun b => !b) = true →
      (update exA none).M_T.getD (nsub (update exA none) - 1) (some 0) = ⊤ ∧
      (update exA none).V_T.getD (nsub (update exA none) - 1)
        (some 0) = none ∧
      (exA.egress = true → ∀ d ∈ egressD exA none, d = ⊤) ∧
      (exA.egress = false → ∀ d ∈ growD exA none, d = ⊤) ∧
      (update exA none).P.getD (nsub (update exA none) - 1) [] =
        List.replicate exA.k ⊤ ∧
      (update exA none).I.getD (nsub (update exA none) - 1) [] =
        List.replicate exA.k (-1) ∧
      (update exA none).left_P.getD (nsub (update exA none) - 1)
        (some 0) = ⊤ ∧
      (update exA none).left_I.getD (nsub (update exA none) - 1) 0 = -1) :=
  C9_theorem exA none (by unfold WF nsub; decide)

/-- C10 witness: the frame condition at the concrete non-egress state `exG`
ingesting `5`. -/
theorem C10_witness :
    (update exG (some 5)).T.dropLast = exG.T ∧
    (update exG (some 5)).Tfin.dropLast = exG.Tfin ∧
    (update exG (some 5)).left_P.dropLast = exG.left_P ∧
    (update exG (some 5)).left_I.dropLast = exG.left_I ∧
    (update exG (some 5)).M_T.dropLast = exG.M_T ∧
    (update exG (some 5)).V_T.dropLast = exG.V_T ∧
    (update exG (some 5)).T.length = exG.T.length + 1 ∧
    (update exG (some 5)).Tfin.length = exG.Tfin.length + 1 ∧
    (update exG (some 5)).left_P.length = exG.left_P.length + 1 ∧
    (update exG (some 5)).left_I.length = exG.left_I.length + 1 ∧
    (update exG (some 5)).M_T.length = exG.M_T.length + 1 ∧
    (update exG (some 5)).V_T.length = exG.V_T.length + 1 :=
  C10_theorem exG (some 5) rfl

end Stumpi
